import Mathlib

/-!
Verification of the libgitdit reference grammar, traversal engine and
garbage collector against their specification.

The development shallowly embeds the library's in-repository backing-store
model: object ids (`TestOid`, a 20-byte big-endian value shown as 40
lowercase hex digits) become natural numbers below `16 ^ 40`; reference
paths become lists of path components; the in-memory object database
(`TestOdb`) becomes an association list from ids to objects; the traversal
iterator (`TestTraversal`) becomes an explicit step function driven by
fuel; the reference store (`TestStore`) becomes a list of named references.
All definitions are executable, so concrete scenarios evaluate by `decide`
or `rfl`.
-/

namespace GitDit

/-! ## Object ids

`TestOid` wraps `[u8; 20]`, ordered lexicographically (equivalently: as a
big-endian 160-bit number).  Its `Display` implementation prints 40
lowercase hex digits; parsing in the store's canonical form accepts exactly
such strings. -/

/-- Upper bound of the id space: ids are 160-bit values. -/
def oidBound : Nat := 16 ^ 40

/-- The sixteen lowercase hexadecimal digit characters, in value order. -/
def hexChars : List Char := "0123456789abcdef".toList

/-- Character for a single hex digit value. -/
def hexDigitChar (n : Nat) : Char := hexChars.getD n '0'

/-- Value of a single lowercase hex digit character. -/
def hexVal (c : Char) : Nat :=
  if c = '0' then 0 else if c = '1' then 1 else if c = '2' then 2
  else if c = '3' then 3 else if c = '4' then 4 else if c = '5' then 5
  else if c = '6' then 6 else if c = '7' then 7 else if c = '8' then 8
  else if c = '9' then 9 else if c = 'a' then 10 else if c = 'b' then 11
  else if c = 'c' then 12 else if c = 'd' then 13 else if c = 'e' then 14
  else 15

/-- Whether a character is a lowercase hexadecimal digit. -/
def isHexDigitLower (c : Char) : Bool := decide (c ∈ hexChars)

/-- Big-endian hex rendering of `n` with exactly `w` digits (the low `4 * w`
bits of `n`). -/
def toHexChars : Nat → Nat → List Char
  | 0, _ => []
  | w + 1, n => toHexChars w (n / 16) ++ [hexDigitChar (n % 16)]

/-- Canonical display form of an id: 40 lowercase hex digits
(`TestOid`'s `Display`). -/
def formatOid (n : Nat) : String := ⟨toHexChars 40 n⟩

/-- Value of a big-endian list of hex digit characters. -/
def hexListVal (l : List Char) : Nat := l.foldl (fun a c => a * 16 + hexVal c) 0

/-- Parse an id in the store's canonical string form: exactly 40 lowercase
hex digits. -/
def parseOid (s : String) : Option Nat :=
  if s.data.length == 40 && s.data.all isHexDigitLower then
    some (hexListVal s.data)
  else
    none

theorem hexVal_hexDigitChar {n : Nat} (h : n < 16) : hexVal (hexDigitChar n) = n := by
  interval_cases n <;> decide

theorem hexDigitChar_hexVal {c : Char} (h : isHexDigitLower c = true) :
    hexDigitChar (hexVal c) = c := by
  have hmem : c ∈ hexChars := of_decide_eq_true h
  fin_cases hmem <;> decide

theorem hexVal_lt {c : Char} (h : isHexDigitLower c = true) : hexVal c < 16 := by
  have hmem : c ∈ hexChars := of_decide_eq_true h
  fin_cases hmem <;> decide

theorem isHexDigitLower_hexDigitChar {n : Nat} (h : n < 16) :
    isHexDigitLower (hexDigitChar n) = true := by
  interval_cases n <;> decide

theorem toHexChars_length (w n : Nat) : (toHexChars w n).length = w := by
  induction w generalizing n with
  | zero => rfl
  | succ w ih => simp [toHexChars, ih]

theorem toHexChars_all_hex (w n : Nat) :
    (toHexChars w n).all isHexDigitLower = true := by
  induction w generalizing n with
  | zero => rfl
  | succ w ih =>
    simp only [toHexChars, List.all_append, List.all_cons, List.all_nil,
      Bool.and_true, Bool.and_eq_true]
    exact ⟨ih _, isHexDigitLower_hexDigitChar (Nat.mod_lt _ (by decide))⟩

theorem hexListVal_append_single (l : List Char) (c : Char) :
    hexListVal (l ++ [c]) = hexListVal l * 16 + hexVal c := by
  simp [hexListVal, List.foldl_append]

theorem hexListVal_toHexChars (w n : Nat) :
    hexListVal (toHexChars w n) = n % 16 ^ w := by
  induction w generalizing n with
  | zero =>
    simp only [toHexChars, hexListVal, List.foldl_nil, Nat.pow_zero]
    omega
  | succ w ih =>
    rw [toHexChars, hexListVal_append_single, ih,
      hexVal_hexDigitChar (Nat.mod_lt _ (by decide))]
    rw [Nat.pow_succ']
    rw [Nat.mod_mul]
    omega

theorem hexListVal_lt {l : List Char} (hhex : l.all isHexDigitLower = true) :
    hexListVal l < 16 ^ l.length := by
  induction l using List.reverseRecOn with
  | nil => simp [hexListVal]
  | append_singleton l c ih =>
    have hparts : l.all isHexDigitLower = true ∧ isHexDigitLower c = true := by
      simpa [List.all_append] using hhex
    rw [hexListVal_append_single]
    have hc : hexVal c < 16 := hexVal_lt hparts.2
    have hl := ih hparts.1
    calc hexListVal l * 16 + hexVal c < (hexListVal l + 1) * 16 := by omega
      _ ≤ 16 ^ l.length * 16 := Nat.mul_le_mul_right 16 (by omega)
      _ = 16 ^ (l ++ [c]).length := by simp [Nat.pow_succ]

theorem toHexChars_hexListVal {l : List Char} {w : Nat}
    (hlen : l.length = w) (hhex : l.all isHexDigitLower = true) :
    toHexChars w (hexListVal l) = l := by
  induction w generalizing l with
  | zero =>
    have : l = [] := List.eq_nil_of_length_eq_zero hlen
    simp [this, toHexChars]
  | succ w ih =>
    rcases List.eq_nil_or_concat l with rfl | ⟨l', c, rfl⟩
    · simp at hlen
    · simp only [List.concat_eq_append] at hlen hhex ⊢
      have hlen' : l'.length = w := by
        simpa using hlen
      have hhex' : l'.all isHexDigitLower = true ∧ isHexDigitLower c = true := by
        simpa [List.all_append] using hhex
      rw [hexListVal_append_single]
      have hc : hexVal c < 16 := hexVal_lt hhex'.2
      have hdiv : (hexListVal l' * 16 + hexVal c) / 16 = hexListVal l' := by omega
      have hmod : (hexListVal l' * 16 + hexVal c) % 16 = hexVal c := by omega
      rw [toHexChars, hdiv, hmod, ih hlen' hhex'.1, hexDigitChar_hexVal hhex'.2]

theorem parseOid_formatOid {n : Nat} (h : n < oidBound) :
    parseOid (formatOid n) = some n := by
  have hlen : (toHexChars 40 n).length = 40 := toHexChars_length 40 n
  have hhex := toHexChars_all_hex 40 n
  simp only [parseOid, formatOid, hlen, hhex, Bool.and_true, beq_self_eq_true, if_true]
  rw [hexListVal_toHexChars]
  exact congrArg some (Nat.mod_eq_of_lt h)

theorem formatOid_parseOid {s : String} {n : Nat} (h : parseOid s = some n) :
    formatOid n = s := by
  unfold parseOid at h
  split at h
  · next hcond =>
    have hlen : s.data.length = 40 := by
      have := (Bool.and_eq_true _ _).mp hcond
      simpa using this.1
    have hhex : s.data.all isHexDigitLower = true := by
      have := (Bool.and_eq_true _ _).mp hcond
      exact this.2
    have hn : n = hexListVal s.data := by
      injection h with h'
      exact h'.symm
    subst hn
    show String.mk (toHexChars 40 (hexListVal s.data)) = s
    rw [toHexChars_hexListVal hlen hhex]
  · exact Option.noConfusion h

theorem parseOid_bound {s : String} {n : Nat} (h : parseOid s = some n) :
    n < oidBound := by
  unfold parseOid at h
  split at h
  · next hcond =>
    have hlen : s.data.length = 40 := by
      have := (Bool.and_eq_true _ _).mp hcond
      simpa using this.1
    have hhex : s.data.all isHexDigitLower = true := by
      have := (Bool.and_eq_true _ _).mp hcond
      exact this.2
    injection h with h'
    subst h'
    have := hexListVal_lt hhex
    rwa [hlen] at this
  · exact Option.noConfusion h

/-! ## Reference paths and the reference grammar

Reference paths are modelled as lists of path components.  `pathParent`
and `pathFileName` mirror Rust's `Path::parent` and `Path::file_name` on
relative paths made of normal components; `Path::ends_with` with a single
component tests the last component. -/

/-- A reference path, as its list of components. -/
abbrev RefPath := List String

/-- Parent of a path: the path without its last component; `none` for the
empty path. -/
def pathParent (p : RefPath) : Option RefPath :=
  match p with
  | [] => none
  | _ :: _ => some p.dropLast

/-- Final component of a path, if any. -/
def pathFileName (p : RefPath) : Option String := p.getLast?

/-- Identifier/file name for the head reference of an issue
(`HEAD_COMPONENT` in reference.rs). -/
def HEAD_COMPONENT : String := "head"

/-- Identifier for the leaf namespace in an issue (`LEAF_COMPONENT` in
reference.rs). -/
def LEAF_COMPONENT : String := "leaves"

/-- Kind of reference (reference.rs `Kind`). -/
inductive RefKind where
  | head : RefKind
  | leaf : Nat → RefKind
deriving DecidableEq, Repr

/-- Parts of a reference associated to an issue (reference.rs `Parts`). -/
structure RefParts where
  pfx : RefPath
  issue : Nat
  kind : RefKind
deriving DecidableEq, Repr

/-- Extract the defining parts of a reference path
(`Reference::parts` in reference.rs): decide Head by the trailing `head`
component, otherwise parse the trailing component as a leaf message id and
require a `leaves` component before it; then parse the issue id component
and return everything before it as the namespace prefix. -/
def refParts (p : RefPath) : Option RefParts :=
  if pathFileName p = some HEAD_COMPONENT then
    match pathParent p with
    | none => none
    | some p1 =>
      match pathFileName p1 with
      | none => none
      | some s =>
        match parseOid s with
        | none => none
        | some issue =>
          match pathParent p1 with
          | none => none
          | some pfx => some ⟨pfx, issue, RefKind.head⟩
  else
    match pathFileName p with
    | none => none
    | some t =>
      match parseOid t with
      | none => none
      | some m =>
        match pathParent p with
        | none => none
        | some p1 =>
          if pathFileName p1 = some LEAF_COMPONENT then
            match pathParent p1 with
            | none => none
            | some p2 =>
              match pathFileName p2 with
              | none => none
              | some s =>
                match parseOid s with
                | none => none
                | some issue =>
                  match pathParent p2 with
                  | none => none
                  | some pfx => some ⟨pfx, issue, RefKind.leaf m⟩
          else none

/-- Whether a path is a head reference path (`Reference::is_head`). -/
def isHeadPath (p : RefPath) : Bool :=
  match refParts p with
  | some pr => match pr.kind with | RefKind.head => true | RefKind.leaf _ => false
  | none => false

/-- Whether a path is a leaf reference path (`Reference::is_leaf`). -/
def isLeafPath (p : RefPath) : Bool :=
  match refParts p with
  | some pr => match pr.kind with | RefKind.head => false | RefKind.leaf _ => true
  | none => false

/-- Format a reference path from its parts, as the issue facade does when
building reference names (`Issue::local_head`, `Issue::update_head`,
`Issue::add_leaf`): `<prefix>/<issue-id>/head` for the head and
`<prefix>/<issue-id>/leaves/<message-id>` for a leaf. -/
def formatRefPath (pfx : RefPath) (issue : Nat) (kind : RefKind) : RefPath :=
  match kind with
  | RefKind.head => pfx ++ [formatOid issue, HEAD_COMPONENT]
  | RefKind.leaf m => pfx ++ [formatOid issue, LEAF_COMPONENT, formatOid m]

theorem pathParent_append_single (l : List String) (x : String) :
    pathParent (l ++ [x]) = some l := by
  unfold pathParent
  split
  · next heq => exact absurd heq (by simp)
  · next => rw [List.dropLast_concat]

theorem pathFileName_append_single (l : List String) (x : String) :
    pathFileName (l ++ [x]) = some x := by
  simp [pathFileName]

theorem parseOid_head_component : parseOid HEAD_COMPONENT = none := by decide

theorem parseOid_leaf_component : parseOid LEAF_COMPONENT = none := by decide

theorem refParts_head_shape (pfx : RefPath) {s : String} {i : Nat}
    (h : parseOid s = some i) :
    refParts (pfx ++ [s, HEAD_COMPONENT]) = some ⟨pfx, i, RefKind.head⟩ := by
  have e1 : pfx ++ [s, HEAD_COMPONENT] = (pfx ++ [s]) ++ [HEAD_COMPONENT] := by simp
  rw [e1]
  unfold refParts
  rw [if_pos (pathFileName_append_single _ _)]
  simp only [pathParent_append_single, pathFileName_append_single, h]

theorem refParts_leaf_shape (pfx : RefPath) {s t : String} {i m : Nat}
    (hs : parseOid s = some i) (ht : parseOid t = some m) :
    refParts (pfx ++ [s, LEAF_COMPONENT, t]) = some ⟨pfx, i, RefKind.leaf m⟩ := by
  have hne : t ≠ HEAD_COMPONENT := by
    intro heq
    rw [heq, parseOid_head_component] at ht
    exact Option.noConfusion ht
  have e1 : pfx ++ [s, LEAF_COMPONENT, t] = ((pfx ++ [s]) ++ [LEAF_COMPONENT]) ++ [t] := by
    simp
  rw [e1]
  unfold refParts
  rw [if_neg (by rw [pathFileName_append_single]; exact fun hc => hne (Option.some.inj hc))]
  simp only [pathFileName_append_single, ht, pathParent_append_single]
  simp only [Option.some.injEq, if_true, hs, eq_self_iff_true, if_pos]

theorem refParts_characterization (p : RefPath) (pr : RefParts) :
    refParts p = some pr ↔
      (∃ s, p = pr.pfx ++ [s, HEAD_COMPONENT] ∧ parseOid s = some pr.issue ∧
        pr.kind = RefKind.head) ∨
      (∃ s t m, p = pr.pfx ++ [s, LEAF_COMPONENT, t] ∧ parseOid s = some pr.issue ∧
        parseOid t = some m ∧ pr.kind = RefKind.leaf m) := by
  constructor
  · intro h
    rcases List.eq_nil_or_concat p with rfl | ⟨q, z, rfl⟩
    · exact absurd h (by simp [refParts, pathFileName, pathParent])
    · simp only [List.concat_eq_append] at h ⊢
      by_cases hz : z = HEAD_COMPONENT
      · subst hz
        rw [refParts.eq_def, if_pos (pathFileName_append_single _ _),
          pathParent_append_single] at h
        rcases List.eq_nil_or_concat q with rfl | ⟨q1, s, rfl⟩
        · simp [pathFileName] at h
        · simp only [List.concat_eq_append, pathFileName_append_single] at h ⊢
          cases hps : parseOid s with
          | none => rw [hps] at h; exact absurd h (by simp)
          | some issue =>
            rw [hps, pathParent_append_single] at h
            have hpr : pr = ⟨q1, issue, RefKind.head⟩ := (Option.some.inj h).symm
            subst hpr
            exact Or.inl ⟨s, by simp, hps, rfl⟩
      · rw [refParts.eq_def,
          if_neg (by rw [pathFileName_append_single]; exact fun hc => hz (Option.some.inj hc))] at h
        simp only [pathFileName_append_single] at h
        cases hpt : parseOid z with
        | none => rw [hpt] at h; exact absurd h (by simp)
        | some m =>
          rw [hpt, pathParent_append_single] at h
          rcases List.eq_nil_or_concat q with rfl | ⟨q1, w, rfl⟩
          · simp [pathFileName] at h
          · simp only [List.concat_eq_append] at h ⊢
            by_cases hw : w = LEAF_COMPONENT
            · subst hw
              rw [if_pos (pathFileName_append_single _ _), pathParent_append_single] at h
              rcases List.eq_nil_or_concat q1 with rfl | ⟨q2, s, rfl⟩
              · simp [pathFileName] at h
              · simp only [List.concat_eq_append, pathFileName_append_single] at h ⊢
                cases hps : parseOid s with
                | none => rw [hps] at h; exact absurd h (by simp)
                | some issue =>
                  rw [hps, pathParent_append_single] at h
                  have hpr : pr = ⟨q2, issue, RefKind.leaf m⟩ := (Option.some.inj h).symm
                  subst hpr
                  exact Or.inr ⟨s, z, m, by simp, hps, hpt, rfl⟩
            · rw [if_neg (by
                rw [pathFileName_append_single]
                exact fun hc => hw (Option.some.inj hc))] at h
              exact absurd h (by simp)
  · intro h
    rcases h with ⟨s, hp, hps, hk⟩ | ⟨s, t, m, hp, hps, hpt, hk⟩
    · subst hp
      rw [refParts_head_shape pr.pfx hps]
      cases pr with
      | mk pfx issue kind => simp only at hk; rw [hk]
    · subst hp
      rw [refParts_leaf_shape pr.pfx hps hpt]
      cases pr with
      | mk pfx issue kind => simp only at hk; rw [hk]

/-! ## References and the reference store

`TestRef` (reference.rs tests) carries a path name and an optional direct
target.  An indirect or broken reference is one whose target is `none`. -/

/-- A reference: a path name together with an optional target id
(`TestRef` in reference.rs). -/
structure TestRef where
  name : RefPath
  target : Option Nat
deriving DecidableEq, Repr

/-- Whether a reference is an issue head reference (`Reference::is_head`). -/
def isHeadRef (r : TestRef) : Bool := isHeadPath r.name

/-- Whether a reference is an issue leaf reference (`Reference::is_leaf`). -/
def isLeafRef (r : TestRef) : Bool := isLeafPath r.name

/-- Filter of an iterator over reference results that keeps head
references and every error (`References::heads`). -/
def headsFilter {E : Type} (l : List (Except E TestRef)) : List (Except E TestRef) :=
  l.filter fun r =>
    match r with
    | Except.ok r => isHeadRef r
    | Except.error _ => true

/-- Filter of an iterator over reference results that keeps leaf
references and every error (`References::leaves`). -/
def leavesFilter {E : Type} (l : List (Except E TestRef)) : List (Except E TestRef) :=
  l.filter fun r =>
    match r with
    | Except.ok r => isLeafRef r
    | Except.error _ => true

/-! ## Claims C5, C6 and C10 -/

/-- C5: parsing and formatting of reference paths are mutual inverses.  For
every path accepted by the parser, formatting the parts it yields
reproduces the path exactly; and parsing a path freshly formatted from a
prefix, an issue id and a kind (with ids in the 160-bit id space) yields
back exactly those parts. -/
theorem refpath_parse_format_roundtrip :
    (∀ (p : RefPath) (pr : RefParts), refParts p = some pr →
      formatRefPath pr.pfx pr.issue pr.kind = p) ∧
    (∀ (pfx : RefPath) (issue : Nat) (kind : RefKind),
      issue < oidBound → (∀ m, kind = RefKind.leaf m → m < oidBound) →
      refParts (formatRefPath pfx issue kind) = some ⟨pfx, issue, kind⟩) := by
  constructor
  · intro p pr h
    rcases (refParts_characterization p pr).mp h with
      ⟨s, hp, hps, hk⟩ | ⟨s, t, m, hp, hps, hpt, hk⟩
    · rw [hk, hp]
      simp only [formatRefPath]
      rw [formatOid_parseOid hps]
    · rw [hk, hp]
      simp only [formatRefPath]
      rw [formatOid_parseOid hps, formatOid_parseOid hpt]
  · intro pfx issue kind hissue hleaf
    cases kind with
    | head =>
      exact refParts_head_shape pfx (parseOid_formatOid hissue)
    | leaf m =>
      exact refParts_leaf_shape pfx (parseOid_formatOid hissue)
        (parseOid_formatOid (hleaf m rfl))

/-- Error items of a stream of reference results, in order
(the `Err` items the filters must pass through). -/
def errorsOf {E : Type} (l : List (Except E TestRef)) : List E :=
  l.filterMap fun i =>
    match i with
    | Except.ok _ => none
    | Except.error e => some e

theorem errorsOf_headsFilter {E : Type} (l : List (Except E TestRef)) :
    errorsOf (headsFilter l) = errorsOf l := by
  induction l with
  | nil => rfl
  | cons i rest ih =>
    cases i with
    | ok r =>
      cases hr : isHeadRef r with
      | true => simp [errorsOf, headsFilter, List.filter_cons, hr] at ih ⊢; exact ih
      | false => simp [errorsOf, headsFilter, List.filter_cons, hr] at ih ⊢; exact ih
    | error e =>
      simp only [errorsOf, headsFilter, List.filter_cons] at ih ⊢
      simp only [List.filterMap_cons] at ih ⊢
      simpa using ih

theorem errorsOf_leavesFilter {E : Type} (l : List (Except E TestRef)) :
    errorsOf (leavesFilter l) = errorsOf l := by
  induction l with
  | nil => rfl
  | cons i rest ih =>
    cases i with
    | ok r =>
      cases hr : isLeafRef r with
      | true => simp [errorsOf, leavesFilter, List.filter_cons, hr] at ih ⊢; exact ih
      | false => simp [errorsOf, leavesFilter, List.filter_cons, hr] at ih ⊢; exact ih
    | error e =>
      simp only [errorsOf, leavesFilter, List.filter_cons] at ih ⊢
      simp only [List.filterMap_cons] at ih ⊢
      simpa using ih

/-- C10: the `heads()` and `leaves()` filters pass the error items through
unchanged (the sequence of errors of the filtered stream is exactly the
sequence of errors of the source stream), keep a retrieved reference
exactly when it parses as a head (resp. leaf) reference, and keep a
reference whose path matches neither grammar shape in neither stream. -/
theorem references_filters_spec :
    (∀ (E : Type) (l : List (Except E TestRef)),
      errorsOf (headsFilter l) = errorsOf l ∧
      errorsOf (leavesFilter l) = errorsOf l) ∧
    (∀ (E : Type) (l : List (Except E TestRef)) (r : TestRef),
      (Except.ok r ∈ headsFilter l ↔ Except.ok r ∈ l ∧ isHeadRef r = true) ∧
      (Except.ok r ∈ leavesFilter l ↔ Except.ok r ∈ l ∧ isLeafRef r = true)) ∧
    (∀ (E : Type) (l : List (Except E TestRef)) (r : TestRef),
      refParts r.name = none →
      Except.ok r ∉ headsFilter l ∧ Except.ok r ∉ leavesFilter l) := by
  refine ⟨?_, ?_, ?_⟩
  · intro E l
    exact ⟨errorsOf_headsFilter l, errorsOf_leavesFilter l⟩
  · intro E l r
    constructor
    · simp [headsFilter, List.mem_filter]
    · simp [leavesFilter, List.mem_filter]
  · intro E l r h
    have hhead : isHeadRef r = false := by
      rw [isHeadRef, isHeadPath, h]
    have hleaf : isLeafRef r = false := by
      rw [isLeafRef, isLeafPath, h]
    constructor
    · simp only [headsFilter, List.mem_filter]
      rintro ⟨-, hkeep⟩
      simp only [hhead] at hkeep
      exact Bool.noConfusion hkeep
    · simp only [leavesFilter, List.mem_filter]
      rintro ⟨-, hkeep⟩
      simp only [hleaf] at hkeep
      exact Bool.noConfusion hkeep

/-! ## The object database and the traversal engine

`TestOdb` (object/tests.rs) keeps a set of objects keyed by id; a commit
object carries its list of parent ids.  `TestTraversal` (traversal.rs
tests) walks the graph backward from a binary heap of head ids: each
`next` pops a maximal id, pushes the popped commit's parents that are not
ends, drops every queued id not strictly below the popped one, and yields
the popped id (or an error when the id does not resolve to a commit). -/

/-- An object of the test database: a commit with parent ids, or a tree. -/
inductive TestObject where
  | commit : List Nat → TestObject
  | tree : TestObject
deriving DecidableEq, Repr

/-- The object database: an association list from ids to objects
(`TestOdb::objects`). -/
abbrev Odb := List (Nat × TestObject)

/-- Look an object up by id. -/
def findObj (db : Odb) (id : Nat) : Option TestObject :=
  (db.find? fun e => e.1 == id).map fun e => e.2

/-- Retrieve a commit's parents, failing like `TestOdb::find_commit` when
the id is absent or not a commit. -/
def findCommitParents (db : Odb) (id : Nat) : Except Unit (List Nat) :=
  match findObj db id with
  | some (TestObject.commit ps) => Except.ok ps
  | _ => Except.error ()

/-- State of a built test traversal: the pending heap of ids and the set
of ends (`TestTraversal`). -/
structure TestTraversal where
  heap : List Nat
  ends : List Nat
deriving DecidableEq, Repr

/-- Maximum of the heap, `none` when it is empty (`BinaryHeap::pop`'s
choice of element). -/
def heapMax : List Nat → Option Nat
  | [] => none
  | x :: xs =>
    some (match heapMax xs with
      | none => x
      | some m => Nat.max x m)

/-- One `Iterator::next` of `TestTraversal`: pop a maximal id; if it is
not a commit, yield an error; otherwise push its parents that are not
ends, retain only queued ids strictly below the popped id, and yield the
popped id. -/
def tnext (db : Odb) (t : TestTraversal) : Option (Except Unit Nat × TestTraversal) :=
  match heapMax t.heap with
  | none => none
  | some id =>
    let rest := t.heap.erase id
    match findObj db id with
    | some (TestObject.commit ps) =>
      let kept := ps.filter fun p => !(decide (p ∈ t.ends))
      some (Except.ok id,
        { t with heap := (rest ++ kept).filter fun c => decide (c < id) })
    | _ => some (Except.error (), { t with heap := rest })

/-- Pull at most `n` items from the traversal, returning the yielded items
and the final state. -/
def runSteps (db : Odb) : Nat → TestTraversal → List (Except Unit Nat) × TestTraversal
  | 0, t => ([], t)
  | n + 1, t =>
    match tnext db t with
    | none => ([], t)
    | some (i, t') =>
      let r := runSteps db n t'
      (i :: r.1, r.2)

/-- The ids of the successfully yielded items, in order. -/
def okIds : List (Except Unit Nat) → List Nat
  | [] => []
  | Except.ok x :: rest => x :: okIds rest
  | Except.error _ :: rest => okIds rest

/-- Ids reachable by the walk: a head, or a parent (not an end) of a
reachable commit. -/
inductive Reach (db : Odb) (heads ends : List Nat) : Nat → Prop where
  | head : ∀ {h}, h ∈ heads → Reach db heads ends h
  | step : ∀ {x p ps}, Reach db heads ends x →
      findObj db x = some (TestObject.commit ps) → p ∈ ps → p ∉ ends →
      Reach db heads ends p

theorem heapMax_eq_none_iff {l : List Nat} : heapMax l = none ↔ l = [] := by
  cases l with
  | nil => simp [heapMax]
  | cons x xs => simp [heapMax]

theorem heapMax_mem {l : List Nat} {m : Nat} (h : heapMax l = some m) : m ∈ l := by
  induction l generalizing m with
  | nil => exact absurd h (by simp [heapMax])
  | cons x xs ih =>
    cases hxs : heapMax xs with
    | none =>
      rw [heapMax, hxs] at h
      injection h with h'
      have h'' : x = m := h'
      exact h'' ▸ List.mem_cons_self x xs
    | some m' =>
      rw [heapMax, hxs] at h
      injection h with h'
      have h'' : Nat.max x m' = m := h'
      rcases Nat.le_total x m' with hle | hle
      · have hm : m = m' := h''.symm.trans (Nat.max_eq_right hle)
        exact List.mem_cons_of_mem x (hm ▸ ih hxs)
      · have hm : m = x := h''.symm.trans (Nat.max_eq_left hle)
        exact hm ▸ List.mem_cons_self x xs

theorem le_heapMax {l : List Nat} {m : Nat} (h : heapMax l = some m) :
    ∀ x ∈ l, x ≤ m := by
  induction l generalizing m with
  | nil => intro x hx; exact absurd hx (by simp)
  | cons a xs ih =>
    intro x hx
    cases hxs : heapMax xs with
    | none =>
      have hnil : xs = [] := heapMax_eq_none_iff.mp hxs
      rw [heapMax, hxs] at h
      injection h with h'
      have h'' : a = m := h'
      subst hnil
      rcases List.mem_cons.mp hx with rfl | hmem
      · omega
      · exact absurd hmem (by simp)
    | some m' =>
      rw [heapMax, hxs] at h
      injection h with h'
      have h'' : Nat.max a m' = m := h'
      rcases List.mem_cons.mp hx with rfl | hmem
      · exact Nat.le_trans (Nat.le_max_left x m') (Nat.le_of_eq h'')
      · exact Nat.le_trans (Nat.le_trans (ih hxs x hmem) (Nat.le_max_right a m'))
          (Nat.le_of_eq h'')

theorem tnext_eq_none_iff {db : Odb} {t : TestTraversal} :
    tnext db t = none ↔ t.heap = [] := by
  constructor
  · intro h
    cases hm : heapMax t.heap with
    | none => exact heapMax_eq_none_iff.mp hm
    | some id =>
      simp only [tnext, hm] at h
      cases hf : findObj db id with
      | none =>
        simp only [hf] at h
        exact Option.noConfusion h
      | some o =>
        cases o with
        | commit ps =>
          simp only [hf] at h
          exact Option.noConfusion h
        | tree =>
          simp only [hf] at h
          exact Option.noConfusion h
  · intro h
    have : heapMax t.heap = none := heapMax_eq_none_iff.mpr h
    rw [tnext, this]

theorem tnext_commit {db : Odb} {t : TestTraversal} {id : Nat} {ps : List Nat}
    (hm : heapMax t.heap = some id)
    (hf : findObj db id = some (TestObject.commit ps)) :
    tnext db t = some (Except.ok id,
      { t with heap := ((t.heap.erase id ++ ps.filter (fun p => !(decide (p ∈ t.ends)))).filter
          (fun c => decide (c < id))) }) := by
  simp only [tnext, hm, hf]

theorem tnext_noncommit {db : Odb} {t : TestTraversal} {id : Nat}
    (hm : heapMax t.heap = some id)
    (hf : ∀ ps, findObj db id ≠ some (TestObject.commit ps)) :
    tnext db t = some (Except.error (), { t with heap := t.heap.erase id }) := by
  cases hobj : findObj db id with
  | none => simp only [tnext, hm, hobj]
  | some o =>
    cases o with
    | commit ps => exact absurd hobj (hf ps)
    | tree => simp only [tnext, hm, hobj]

theorem runSteps_zero (db : Odb) (t : TestTraversal) : runSteps db 0 t = ([], t) := rfl

theorem runSteps_succ_of_tnext {db : Odb} {t t' : TestTraversal} {i : Except Unit Nat}
    (h : tnext db t = some (i, t')) (n : Nat) :
    runSteps db (n + 1) t = (i :: (runSteps db n t').1, (runSteps db n t').2) := by
  rw [runSteps, h]

theorem runSteps_of_tnext_none {db : Odb} {t : TestTraversal}
    (h : tnext db t = none) (n : Nat) : runSteps db n t = ([], t) := by
  cases n with
  | zero => rfl
  | succ n => rw [runSteps, h]

/-- Measure used for termination: one more than the largest queued id. -/
def heapBound (t : TestTraversal) : Nat :=
  match heapMax t.heap with
  | none => 0
  | some m => m + 1

theorem heapBound_le_of_subset {t t' : TestTraversal}
    (h : ∀ x ∈ t'.heap, x ∈ t.heap) : heapBound t' ≤ heapBound t := by
  cases hm' : heapMax t'.heap with
  | none => simp [heapBound, hm']
  | some m' =>
    have hmem := heapMax_mem hm'
    cases hm : heapMax t.heap with
    | none =>
      have : t.heap = [] := heapMax_eq_none_iff.mp hm
      exact absurd (this ▸ h m' hmem) (by simp)
    | some m =>
      have := le_heapMax hm m' (h m' hmem)
      simp only [heapBound, hm', hm]
      omega

theorem heapBound_lt_of_all_lt {t' : TestTraversal} {c : Nat}
    (h : ∀ x ∈ t'.heap, x < c) : heapBound t' ≤ c := by
  cases hm' : heapMax t'.heap with
  | none => simp [heapBound, hm']
  | some m' =>
    have := h m' (heapMax_mem hm')
    simp only [heapBound, hm']
    omega

theorem exists_terminal_aux (db : Odb) :
    ∀ (M L : Nat) (t : TestTraversal), heapBound t ≤ M → t.heap.length ≤ L →
      ∃ n, ((runSteps db n t).2).heap = [] := by
  intro M
  induction M with
  | zero =>
    intro L t hμ hL
    cases hm : heapMax t.heap with
    | none => exact ⟨0, heapMax_eq_none_iff.mp hm⟩
    | some m => simp [heapBound, hm] at hμ
  | succ M ihM =>
    intro L
    induction L with
    | zero =>
      intro t hμ hL
      have : t.heap = [] := List.eq_nil_of_length_eq_zero (Nat.le_zero.mp hL)
      exact ⟨0, this⟩
    | succ L ihL =>
      intro t hμ hL
      cases hm : heapMax t.heap with
      | none => exact ⟨0, heapMax_eq_none_iff.mp hm⟩
      | some id =>
        have hidmem : id ∈ t.heap := heapMax_mem hm
        have hidle : id + 1 ≤ M + 1 := by
          have : heapBound t = id + 1 := by simp [heapBound, hm]
          omega
        cases hf : findObj db id with
        | some o =>
          cases o with
          | commit ps =>
            have hstep := tnext_commit hm hf
            set t' : TestTraversal :=
              { t with heap := ((t.heap.erase id ++ ps.filter (fun p => !(decide (p ∈ t.ends)))).filter
                  (fun c => decide (c < id))) } with ht'
            have hlt : ∀ x ∈ t'.heap, x < id := by
              intro x hx
              rw [ht'] at hx
              simp only [List.mem_filter] at hx
              exact of_decide_eq_true hx.2
            have hbound : heapBound t' ≤ M := by
              have := heapBound_lt_of_all_lt hlt
              omega
            obtain ⟨n, hn⟩ := ihM t'.heap.length t' hbound (Nat.le_refl _)
            refine ⟨n + 1, ?_⟩
            rw [runSteps_succ_of_tnext hstep n]
            exact hn
          | tree =>
            have hstep := tnext_noncommit hm (fun ps h => by rw [hf] at h; exact absurd h (by simp))
            set t' : TestTraversal := { t with heap := t.heap.erase id } with ht'
            have hsub : ∀ x ∈ t'.heap, x ∈ t.heap := by
              intro x hx
              rw [ht'] at hx
              exact List.erase_subset _ _ hx
            have hbound : heapBound t' ≤ M + 1 :=
              Nat.le_trans (heapBound_le_of_subset hsub) hμ
            have hlen : t'.heap.length ≤ L := by
              have := List.length_erase_of_mem hidmem
              have hpos : 1 ≤ t.heap.length := by
                cases hh : t.heap with
                | nil => rw [hh] at hidmem; exact absurd hidmem (by simp)
                | cons a as => simp [hh]
              rw [ht']
              simp only [this]
              omega
            obtain ⟨n, hn⟩ := ihL t' hbound hlen
            refine ⟨n + 1, ?_⟩
            rw [runSteps_succ_of_tnext hstep n]
            exact hn
        | none =>
          have hstep := tnext_noncommit hm (fun ps h => by rw [hf] at h; exact absurd h (by simp))
          set t' : TestTraversal := { t with heap := t.heap.erase id } with ht'
          have hsub : ∀ x ∈ t'.heap, x ∈ t.heap := by
            intro x hx
            rw [ht'] at hx
            exact List.erase_subset _ _ hx
          have hbound : heapBound t' ≤ M + 1 :=
            Nat.le_trans (heapBound_le_of_subset hsub) hμ
          have hlen : t'.heap.length ≤ L := by
            have := List.length_erase_of_mem hidmem
            have hpos : 1 ≤ t.heap.length := by
              cases hh : t.heap with
              | nil => rw [hh] at hidmem; exact absurd hidmem (by simp)
              | cons a as => simp [hh]
            rw [ht']
            simp only [this]
            omega
          obtain ⟨n, hn⟩ := ihL t' hbound hlen
          refine ⟨n + 1, ?_⟩
          rw [runSteps_succ_of_tnext hstep n]
          exact hn

/-- Every built test traversal runs out of queued ids after finitely many
pulls. -/
theorem exists_terminal (db : Odb) (t : TestTraversal) :
    ∃ n, ((runSteps db n t).2).heap = [] :=
  exists_terminal_aux db (heapBound t) t.heap.length t (Nat.le_refl _) (Nat.le_refl _)

theorem runSteps_stable {db : Odb} :
    ∀ (n : Nat) (t : TestTraversal), ((runSteps db n t).2).heap = [] →
      ∀ k, runSteps db (n + k) t = runSteps db n t := by
  intro n
  induction n with
  | zero =>
    intro t h k
    have hnone : tnext db t = none := tnext_eq_none_iff.mpr h
    rw [runSteps_zero]
    rw [Nat.zero_add]
    exact runSteps_of_tnext_none hnone k
  | succ n ih =>
    intro t h k
    cases hstep : tnext db t with
    | none =>
      rw [runSteps_of_tnext_none hstep (n + 1 + k), runSteps_of_tnext_none hstep (n + 1)]
    | some it =>
      obtain ⟨i, t'⟩ := it
      have h' : ((runSteps db n t').2).heap = [] := by
        rw [runSteps_succ_of_tnext hstep n] at h
        exact h
      rw [show n + 1 + k = (n + k) + 1 by omega,
        runSteps_succ_of_tnext hstep (n + k),
        runSteps_succ_of_tnext hstep n, ih t' h' k]



theorem okIds_mem_iff {l : List (Except Unit Nat)} {x : Nat} :
    x ∈ okIds l ↔ Except.ok x ∈ l := by
  induction l with
  | nil => simp [okIds]
  | cons i rest ih =>
    cases i with
    | ok y => simp [okIds, ih]
    | error e => simp [okIds, ih]

theorem findObj_tree_not_commit {db : Odb} {id : Nat}
    (hf : findObj db id = some TestObject.tree) :
    ∀ ps, findObj db id ≠ some (TestObject.commit ps) := by
  intro ps h
  rw [hf] at h
  injection h with h'
  exact TestObject.noConfusion h'

theorem findObj_none_not_commit {db : Odb} {id : Nat}
    (hf : findObj db id = none) :
    ∀ ps, findObj db id ≠ some (TestObject.commit ps) := by
  intro ps h
  rw [hf] at h
  exact Option.noConfusion h

/-- Inversion of one traversal step: how the new heap relates to the old
one, and what was yielded. -/
theorem tnext_inv {db : Odb} {t t' : TestTraversal} {i : Except Unit Nat}
    (hstep : tnext db t = some (i, t')) :
    t'.ends = t.ends ∧
    (∀ y ∈ t'.heap, y ∈ t.heap ∨ ∃ id ps, i = Except.ok id ∧
      findObj db id = some (TestObject.commit ps) ∧ y ∈ ps ∧ y ∉ t.ends ∧ y < id) ∧
    (∀ id, i = Except.ok id → id ∈ t.heap ∧ heapMax t.heap = some id ∧
      ∃ ps, findObj db id = some (TestObject.commit ps)) ∧
    (∀ id, i = Except.ok id → ∀ y ∈ t'.heap, y < id) := by
  cases hm : heapMax t.heap with
  | none =>
    rw [tnext_eq_none_iff.mpr (heapMax_eq_none_iff.mp hm)] at hstep
    exact Option.noConfusion hstep
  | some id =>
    cases hf : findObj db id with
    | some o =>
      cases o with
      | commit ps =>
        rw [tnext_commit hm hf] at hstep
        injection hstep with hstep'
        injection hstep' with hi ht'
        subst hi
        subst ht'
        refine ⟨rfl, ?_, ?_, ?_⟩
        · intro y hy
          simp only [List.mem_filter, List.mem_append] at hy
          obtain ⟨hy1, hy2⟩ := hy
          have hylt : y < id := of_decide_eq_true hy2
          rcases hy1 with hyerase | hykept
          · exact Or.inl (List.erase_subset _ _ hyerase)
          · have hnotend : y ∉ t.ends := by
              have := hykept.2
              rw [Bool.not_eq_true', decide_eq_false_iff_not] at this
              exact this
            exact Or.inr ⟨id, ps, rfl, hf, hykept.1, hnotend, hylt⟩
        · intro id' hid'
          injection hid' with hid''
          subst hid''
          exact ⟨heapMax_mem hm, rfl, ps, hf⟩
        · intro id' hid' y hy
          injection hid' with hid''
          subst hid''
          simp only [List.mem_filter] at hy
          exact of_decide_eq_true hy.2
      | tree =>
        rw [tnext_noncommit hm (findObj_tree_not_commit hf)] at hstep
        injection hstep with hstep'
        injection hstep' with hi ht'
        subst hi
        subst ht'
        refine ⟨rfl, ?_, ?_, ?_⟩
        · intro y hy
          exact Or.inl (List.erase_subset _ _ hy)
        · intro id' hid'
          exact Except.noConfusion hid'
        · intro id' hid'
          exact Except.noConfusion hid'
    | none =>
      rw [tnext_noncommit hm (findObj_none_not_commit hf)] at hstep
      injection hstep with hstep'
      injection hstep' with hi ht'
      subst hi
      subst ht'
      refine ⟨rfl, ?_, ?_, ?_⟩
      · intro y hy
        exact Or.inl (List.erase_subset _ _ hy)
      · intro id' hid'
        exact Except.noConfusion hid'
      · intro id' hid'
        exact Except.noConfusion hid'

theorem runSteps_sound {db : Odb} {heads ends : List Nat} :
    ∀ (n : Nat) (t : TestTraversal), t.ends = ends →
      (∀ x ∈ t.heap, Reach db heads ends x) →
      ∀ x, Except.ok x ∈ (runSteps db n t).1 → Reach db heads ends x := by
  intro n
  induction n with
  | zero =>
    intro t _ _ x hx
    exact absurd hx (by simp [runSteps_zero])
  | succ n ih =>
    intro t hends hheap x hx
    cases hstep : tnext db t with
    | none =>
      rw [runSteps_of_tnext_none hstep] at hx
      exact absurd hx (by simp)
    | some it =>
      obtain ⟨i, t'⟩ := it
      obtain ⟨hiends, hnew, hok, _⟩ := tnext_inv hstep
      rw [runSteps_succ_of_tnext hstep n] at hx
      rcases List.mem_cons.mp hx with heq | hrest
      · obtain ⟨hidmem, -, -⟩ := hok x heq.symm
        exact hheap x hidmem
      · refine ih t' (hiends.trans hends) ?_ x hrest
        intro y hy
        rcases hnew y hy with hold | ⟨id, ps, hi, hf, hpmem, hnotend, -⟩
        · exact hheap y hold
        · obtain ⟨hidmem, -, -⟩ := hok id hi
          exact Reach.step (hheap id hidmem) hf hpmem (hends ▸ hnotend)

theorem reach_end_mem_heads {db : Odb} {heads ends : List Nat} {x : Nat}
    (h : Reach db heads ends x) (hx : x ∈ ends) : x ∈ heads := by
  cases h with
  | head hmem => exact hmem
  | step _ _ _ hnot => exact absurd hx hnot

theorem runSteps_ok_lt {db : Odb} :
    ∀ (n : Nat) (t : TestTraversal) (c : Nat), (∀ x ∈ t.heap, x < c) →
      ∀ y ∈ okIds (runSteps db n t).1, y < c := by
  intro n
  induction n with
  | zero =>
    intro t c _ y hy
    exact absurd hy (by simp [runSteps_zero, okIds])
  | succ n ih =>
    intro t c hheap y hy
    cases hstep : tnext db t with
    | none =>
      rw [runSteps_of_tnext_none hstep] at hy
      exact absurd hy (by simp [okIds])
    | some it =>
      obtain ⟨i, t'⟩ := it
      obtain ⟨-, hnew, hok, -⟩ := tnext_inv hstep
      rw [runSteps_succ_of_tnext hstep n] at hy
      have hsub : ∀ z ∈ t'.heap, z < c := by
        intro z hz
        rcases hnew z hz with hold | ⟨id, ps, hi, -, -, -, hzlt⟩
        · exact hheap z hold
        · obtain ⟨hidmem, -, -⟩ := hok id hi
          have := hheap id hidmem
          omega
      cases i with
      | ok w =>
        simp only [okIds] at hy
        rcases List.mem_cons.mp hy with rfl | hrest
        · obtain ⟨hidmem, -, -⟩ := hok y rfl
          exact hheap y hidmem
        · exact ih t' c hsub y hrest
      | error e =>
        simp only [okIds] at hy
        exact ih t' c hsub y hy

theorem runSteps_ok_pairwise {db : Odb} :
    ∀ (n : Nat) (t : TestTraversal),
      (okIds (runSteps db n t).1).Pairwise (fun a b => b < a) := by
  intro n
  induction n with
  | zero =>
    intro t
    simp [runSteps_zero, okIds]
  | succ n ih =>
    intro t
    cases hstep : tnext db t with
    | none =>
      rw [runSteps_of_tnext_none hstep]
      simp [okIds]
    | some it =>
      obtain ⟨i, t'⟩ := it
      obtain ⟨-, -, -, hlt⟩ := tnext_inv hstep
      rw [runSteps_succ_of_tnext hstep n]
      cases i with
      | ok w =>
        simp only [okIds]
        refine List.Pairwise.cons ?_ (ih t')
        intro y hy
        exact runSteps_ok_lt n t' w (hlt w rfl) y hy
      | error e =>
        simp only [okIds]
        exact ih t'

theorem runSteps_ok_nodup {db : Odb} (n : Nat) (t : TestTraversal) :
    (okIds (runSteps db n t).1).Nodup := by
  have := @runSteps_ok_pairwise db n t
  exact this.imp fun hlt => Nat.ne_of_gt hlt

theorem reach_mono {db : Odb} {heads heads' ends : List Nat} {x : Nat}
    (hsub : ∀ h ∈ heads, h ∈ heads') (h : Reach db heads ends x) :
    Reach db heads' ends x := by
  induction h with
  | head hmem => exact Reach.head (hsub _ hmem)
  | step _ hf hp hnot ih => exact Reach.step ih hf hp hnot

theorem reach_from_heads {db : Odb} {heads ends : List Nat} {x : Nat}
    (h : Reach db heads ends x) : ∃ y ∈ heads, Reach db [y] ends x := by
  induction h with
  | head hmem => exact ⟨_, hmem, Reach.head (List.mem_singleton_self _)⟩
  | step _ hf hp hnot ih =>
    obtain ⟨y, hy, hreach⟩ := ih
    exact ⟨y, hy, Reach.step hreach hf hp hnot⟩

theorem reach_single_cases {db : Odb} {y : Nat} {ends : List Nat} {x : Nat}
    (h : Reach db [y] ends x) :
    x = y ∨ ∃ ps p, findObj db y = some (TestObject.commit ps) ∧ p ∈ ps ∧ p ∉ ends ∧
      Reach db [p] ends x := by
  induction h with
  | head hmem => exact Or.inl (List.mem_singleton.mp hmem)
  | step hr hf hp hnot ih =>
    rcases ih with rfl | ⟨ps', p', hf', hp', hnot', hr'⟩
    · exact Or.inr ⟨_, _, hf, hp, hnot, Reach.head (List.mem_singleton_self _)⟩
    · exact Or.inr ⟨ps', p', hf', hp', hnot', Reach.step hr' hf hp hnot⟩

/-- Well-formed object database: every parent of a commit is a commit with
a strictly smaller id.  This is the discipline `TestOdb` obeys: `next_oid`
hands out increasing ids, so parents are created before their children. -/
def WfParents (db : Odb) : Prop :=
  ∀ id ps, findObj db id = some (TestObject.commit ps) →
    ∀ p ∈ ps, p < id ∧ ∃ qs, findObj db p = some (TestObject.commit qs)

/-- All listed ids resolve to commits. -/
def HeapCommits (db : Odb) (l : List Nat) : Prop :=
  ∀ y ∈ l, ∃ ps, findObj db y = some (TestObject.commit ps)

/-- Executable check for `WfParents`. -/
def wfParentsB (db : Odb) : Bool :=
  db.all fun e =>
    match e.2 with
    | TestObject.commit ps =>
      ps.all fun p => decide (p < e.1) &&
        (match findObj db p with
          | some (TestObject.commit _) => true
          | _ => false)
    | TestObject.tree => true

/-- Executable check for `HeapCommits`. -/
def heapCommitsB (db : Odb) (l : List Nat) : Bool :=
  l.all fun y =>
    match findObj db y with
    | some (TestObject.commit _) => true
    | _ => false

theorem findObj_mem {db : Odb} {id : Nat} {o : TestObject}
    (h : findObj db id = some o) : ∃ e ∈ db, e.1 = id ∧ e.2 = o := by
  unfold findObj at h
  cases hfind : db.find? (fun e => e.1 == id) with
  | none =>
    rw [hfind] at h
    exact Option.noConfusion h
  | some e =>
    rw [hfind] at h
    injection h with h'
    have hmem := List.mem_of_find?_eq_some hfind
    have hpred := List.find?_some hfind
    exact ⟨e, hmem, by simpa using hpred, h'⟩

theorem wfParentsB_spec {db : Odb} (h : wfParentsB db = true) : WfParents db := by
  intro id ps hf p hp
  obtain ⟨e, hmem, he1, he2⟩ := findObj_mem hf
  have hone := List.all_eq_true.mp h e hmem
  rw [he2] at hone
  have hall : (ps.all fun p => decide (p < e.1) &&
      (match findObj db p with
        | some (TestObject.commit _) => true
        | _ => false)) = true := hone
  have hthis := List.all_eq_true.mp hall p hp
  obtain ⟨h1, h2⟩ := (Bool.and_eq_true _ _).mp hthis
  refine ⟨he1 ▸ of_decide_eq_true h1, ?_⟩
  cases hfp : findObj db p with
  | none =>
    rw [hfp] at h2
    exact Bool.noConfusion h2
  | some o =>
    cases o with
    | commit qs => exact ⟨qs, rfl⟩
    | tree =>
      rw [hfp] at h2
      exact Bool.noConfusion h2

theorem heapCommitsB_spec {db : Odb} {l : List Nat}
    (h : heapCommitsB db l = true) : HeapCommits db l := by
  intro y hy
  have := List.all_eq_true.mp h y hy
  cases hfp : findObj db y with
  | none =>
    rw [hfp] at this
    exact Bool.noConfusion this
  | some o =>
    cases o with
    | commit qs => exact ⟨qs, rfl⟩
    | tree =>
      rw [hfp] at this
      exact Bool.noConfusion this

theorem runSteps_complete {db : Odb} (hwf : WfParents db) :
    ∀ (n : Nat) (t : TestTraversal), HeapCommits db t.heap →
      ((runSteps db n t).2).heap = [] →
      ∀ x y, y ∈ t.heap → Reach db [y] t.ends x →
        Except.ok x ∈ (runSteps db n t).1 := by
  intro n
  induction n with
  | zero =>
    intro t hhc hterm x y hy hreach
    rw [runSteps_zero] at hterm
    rw [hterm] at hy
    exact absurd hy (by simp)
  | succ n ih =>
    intro t hhc hterm x y hy hreach
    cases hm : heapMax t.heap with
    | none =>
      rw [heapMax_eq_none_iff.mp hm] at hy
      exact absurd hy (by simp)
    | some id =>
      obtain ⟨ps, hf⟩ := hhc id (heapMax_mem hm)
      have hstep := tnext_commit hm hf
      rw [runSteps_succ_of_tnext hstep n] at hterm ⊢
      have hc' : HeapCommits db
          (((t.heap.erase id ++ ps.filter (fun p => !(decide (p ∈ t.ends)))).filter
            (fun c => decide (c < id)))) := by
        intro z hz
        simp only [List.mem_filter, List.mem_append] at hz
        rcases hz.1 with hzerase | hzkept
        · exact hhc z (List.erase_subset _ _ hzerase)
        · exact (hwf id ps hf z hzkept.1).2
      by_cases hxid : x = id
      · subst hxid
        exact List.mem_cons_self _ _
      · refine List.mem_cons_of_mem _ ?_
        by_cases hyid : y = id
        · subst hyid
          rcases reach_single_cases hreach with rfl | ⟨ps', p, hf', hp, hnotend, hr⟩
          · exact absurd rfl hxid
          · have hpps : p ∈ ps := by
              have hps2 : ps' = ps := by
                rw [hf] at hf'
                injection hf' with h1
                injection h1 with h2
                exact h2.symm
              exact hps2 ▸ hp
            have hplt : p < y := (hwf y ps hf p hpps).1
            have hpmem : p ∈ ((t.heap.erase y ++
                ps.filter (fun p => !(decide (p ∈ t.ends)))).filter
                (fun c => decide (c < y))) := by
              simp only [List.mem_filter, List.mem_append]
              refine ⟨Or.inr ?_, decide_eq_true hplt⟩
              refine ⟨hpps, ?_⟩
              rw [Bool.not_eq_true', decide_eq_false_iff_not]
              exact hnotend
            exact ih _ hc' hterm x p hpmem hr
        · have hyle := le_heapMax hm y hy
          have hylt : y < id := Nat.lt_of_le_of_ne hyle hyid
          have hymem : y ∈ ((t.heap.erase id ++
              ps.filter (fun p => !(decide (p ∈ t.ends)))).filter
              (fun c => decide (c < id))) := by
            simp only [List.mem_filter, List.mem_append]
            exact ⟨Or.inl ((List.mem_erase_of_ne hyid).mpr hy), decide_eq_true hylt⟩
          exact ih _ hc' hterm x y hymem hreach

/-- Under a well-formed database, the ids yielded by an exhausted walk are
exactly the ids reachable from the initial heap avoiding the ends. -/
theorem runSteps_ok_mem_iff_reach {db : Odb} {n : Nat} {t : TestTraversal}
    (hwf : WfParents db) (hhc : HeapCommits db t.heap)
    (hterm : ((runSteps db n t).2).heap = []) (x : Nat) :
    Except.ok x ∈ (runSteps db n t).1 ↔ Reach db t.heap t.ends x := by
  constructor
  · exact runSteps_sound n t rfl (fun z hz => Reach.head hz) x
  · intro hreach
    obtain ⟨y, hy, hr⟩ := reach_from_heads hreach
    exact runSteps_complete hwf n t hhc hterm x y hy hr

/-! ## Claim C4 -/

/-- A diamond-shaped message DAG: two paths from the head converge on a
shared ancestor. -/
def diamondDb : Odb :=
  [(0, TestObject.commit []), (1, TestObject.commit [0]),
   (2, TestObject.commit [0]), (3, TestObject.commit [2, 1])]

/-- C4 counterexample: an end id that is also a head is yielded by the
built traversal.  With the single commit `0`, heads `[0]` and ends `[0]`,
the walk yields `Ok 0` even though `0` is an end — the claim that no end
id is ever yielded fails. -/
theorem traversal_yields_end_counterexample :
    (runSteps [((0 : Nat), TestObject.commit [])] 2
      { heap := [0], ends := [0] }).1 = [Except.ok 0] ∧ (0 : Nat) ∈ [0] :=
  ⟨rfl, by decide⟩

/-- C4 (amended): for every database and every choice of heads and ends,
the built traversal is exhausted after finitely many pulls and is stable
afterwards; every yielded id is reachable from some head along parent
steps that never pass through an end; an end id is yielded only when it
was itself supplied as a head (parents of ends are never enqueued, but
heads are yielded unconditionally); and no id is yielded twice.  In the
diamond-shaped DAG the shared ancestor `0` is yielded exactly once. -/
theorem traversal_run_spec :
    (∀ (db : Odb) (heads ends : List Nat), ∃ n,
      ((runSteps db n { heap := heads, ends := ends }).2).heap = [] ∧
      (∀ m, runSteps db (n + m) { heap := heads, ends := ends } =
        runSteps db n { heap := heads, ends := ends }) ∧
      (∀ x, Except.ok x ∈ (runSteps db n { heap := heads, ends := ends }).1 →
        Reach db heads ends x) ∧
      (∀ x, Except.ok x ∈ (runSteps db n { heap := heads, ends := ends }).1 →
        x ∈ ends → x ∈ heads) ∧
      (okIds (runSteps db n { heap := heads, ends := ends }).1).Nodup) ∧
    okIds (runSteps diamondDb 5 { heap := [3], ends := [] }).1 = [3, 2, 1, 0] := by
  constructor
  · intro db heads ends
    obtain ⟨n, hterm⟩ := exists_terminal db { heap := heads, ends := ends }
    have hsound := @runSteps_sound db heads ends n
      { heap := heads, ends := ends } rfl (fun z hz => Reach.head hz)
    refine ⟨n, hterm, ?_, hsound, ?_, runSteps_ok_nodup n _⟩
    · intro m
      exact runSteps_stable n _ hterm m
    · intro x hx hxend
      exact reach_end_mem_heads (hsound x hx) hxend
  · rfl

/-! ## The reference store, the issue facade and the garbage collector

`TestRepo` bundles the reference store (`TestStore`: a set of references
keyed by name, plus remote names) with the object database, as the tuple
stores used by the generic code do.  The issue facade functions mirror
issue.rs: reference paths are `refs/dit/<issue>/…` locally and
`refs/remotes/<remote>/dit/<issue>/…` per remote. -/

/-- A repository: reference store, remote names and object database. -/
structure TestRepo where
  refs : List TestRef
  remotes : List String
  odb : Odb
deriving Repr

/-- Retrieve a reference by name (`TestStore::get_reference`). -/
def getReference (repo : TestRepo) (path : RefPath) : Option TestRef :=
  repo.refs.find? fun r => r.name == path

/-- Retrieve the references whose names start with a prefix
(`TestStore::references`). -/
def references (repo : TestRepo) (pfx : RefPath) : List TestRef :=
  repo.refs.filter fun r => pfx.isPrefixOf r.name

/-- Reference part for the dit namespace (`DIT_REF_PART` in issue.rs). -/
def DIT_REF_PART : String := "dit"

/-- Path of the local head reference of an issue (`Issue::local_head`). -/
def localHeadPath (issue : Nat) : RefPath :=
  ["refs", DIT_REF_PART, formatOid issue, HEAD_COMPONENT]

/-- Path prefix of the local references of an issue (`Issue::local_refs`). -/
def localRefsPath (issue : Nat) : RefPath :=
  ["refs", DIT_REF_PART, formatOid issue]

/-- Path of the head reference of an issue at a remote
(`Issue::remote_head`). -/
def remoteHeadPath (remote : String) (issue : Nat) : RefPath :=
  ["refs", "remotes", remote, DIT_REF_PART, formatOid issue, HEAD_COMPONENT]

/-- Path prefix of the references of an issue at a remote
(`Issue::remote_refs`). -/
def remoteRefsPath (remote : String) (issue : Nat) : RefPath :=
  ["refs", "remotes", remote, DIT_REF_PART, formatOid issue]

/-- The local head reference of an issue, if present. -/
def localHead (repo : TestRepo) (issue : Nat) : Option TestRef :=
  getReference repo (localHeadPath issue)

/-- All local references of an issue. -/
def localRefs (repo : TestRepo) (issue : Nat) : List TestRef :=
  references repo (localRefsPath issue)

/-- The head references of an issue over all remotes, skipping absent ones
(`Issue::all_remote_heads`). -/
def allRemoteHeads (repo : TestRepo) (issue : Nat) : List TestRef :=
  repo.remotes.filterMap fun n => getReference repo (remoteHeadPath n issue)

/-- All references of an issue over all remotes (`Issue::all_remote_refs`). -/
def allRemoteRefs (repo : TestRepo) (issue : Nat) : List TestRef :=
  (repo.remotes.map fun n => references repo (remoteRefsPath n issue)).join

/-- Create or update a reference (`TestStore::set_reference`).  With the
overwrite flag the existing reference of that name is replaced
(`BTreeSet::replace`); without it, `BTreeSet::insert` keeps an already
present reference of the same name unchanged — and the function still
returns the new reference as if it had been stored. -/
def setReference (refs : List TestRef) (name : RefPath) (target : Nat)
    (overwrite : Bool) : List TestRef × TestRef :=
  let new : TestRef := { name := name, target := some target }
  if overwrite then
    (if refs.any (fun r => r.name == name) then
        refs.map fun r => if r.name == name then new else r
      else refs ++ [new], new)
  else
    (if refs.any (fun r => r.name == name) then refs else refs ++ [new], new)

/-- Update the local head reference of an issue (`Issue::update_head`):
delegates to `setReference` with the caller's overwrite flag and returns
its result, never an error in the test store. -/
def updateHead (repo : TestRepo) (issue : Nat) (message : Nat)
    (replace : Bool) : TestRepo × Except Unit TestRef :=
  let res := setReference repo.refs (localHeadPath issue) message replace
  ({ repo with refs := res.1 }, Except.ok res.2)

/-- Under what circumstances local heads should be collected
(gc.rs `ReferenceCollectionSpec`). -/
inductive ReferenceCollectionSpec where
  | never : ReferenceCollectionSpec
  | backedByRemoteHead : ReferenceCollectionSpec
deriving DecidableEq, Repr

/-- Configuration of the garbage collector (the `CollectableRefs`
builder's fields). -/
structure GcConfig where
  consider_remote_refs : Bool
  collect_heads : ReferenceCollectionSpec
deriving DecidableEq, Repr

/-- The local head reference of an issue if it is collectable
(`CollectableRefs::head`): nothing when there is no local head or the
policy is `Never`; a head without target is collectable outright under
`BackedByRemoteHead`; otherwise the head is collectable exactly when its
target appears in the walk whose heads are the remote head targets and
whose ends are the parents of the initial message. -/
def gcHead (fuel : Nat) (cfg : GcConfig) (repo : TestRepo) (issue : Nat) :
    Except Unit (Option TestRef) :=
  match localHead repo issue with
  | none => Except.ok none
  | some h =>
    match cfg.collect_heads with
    | ReferenceCollectionSpec.never => Except.ok none
    | ReferenceCollectionSpec.backedByRemoteHead =>
      match h.target with
      | none => Except.ok (some h)
      | some t =>
        match findCommitParents repo.odb issue with
        | Except.error e => Except.error e
        | Except.ok initPs =>
          let heads := (allRemoteHeads repo issue).filterMap fun r => r.target
          let out := (runSteps repo.odb fuel { heap := heads, ends := initPs }).1
          Except.ok (if out.any (fun i =>
              match i with
              | Except.ok x => x == t
              | Except.error _ => false) then some h else none)

/-- Insert a reference into the candidates map
(`candidates.entry(id).or_default().push(..)`). -/
def insertCand : List (Nat × List TestRef) → Nat → TestRef → List (Nat × List TestRef)
  | [], id, r => [(id, [r])]
  | (k, rs) :: rest, id, r =>
    if k = id then (k, rs ++ [r]) :: rest else (k, rs) :: insertCand rest id r

/-- Remove a key from the candidates map, returning its references (empty
when absent) and the remaining map
(`candidates.remove(&id).unwrap_or_default()`). -/
def removeCand : List (Nat × List TestRef) → Nat → List TestRef × List (Nat × List TestRef)
  | [], _ => ([], [])
  | (k, rs) :: rest, id =>
    if k = id then (rs, rest)
    else
      let r := removeCand rest id
      (r.1, (k, rs) :: r.2)

/-- References stored for a key of the candidates map. -/
def candLookup (cands : List (Nat × List TestRef)) (id : Nat) : List TestRef :=
  match cands.find? (fun e => e.1 == id) with
  | some e => e.2
  | none => []

/-- Scan of the local leaves (the `for reference in …leaves()` loop of
`CollectableRefs::leaves`): a leaf with a target adds the target commit's
parents as heads of the walk and itself to the candidates; a leaf without
a target goes to the dead leaves; an unresolvable target aborts. -/
def gcLeavesScan (db : Odb) :
    List TestRef → List Nat → List (Nat × List TestRef) → List TestRef →
    Except Unit (List Nat × List (Nat × List TestRef) × List TestRef)
  | [], heap, cands, dead => Except.ok (heap, cands, dead)
  | r :: rest, heap, cands, dead =>
    match r.target with
    | some id =>
      match findCommitParents db id with
      | Except.ok ps => gcLeavesScan db rest (heap ++ ps) (insertCand cands id r) dead
      | Except.error e => Except.error e
    | none => gcLeavesScan db rest heap cands (dead ++ [r])

/-- The `map_while` over the built walk in `CollectableRefs::leaves`:
stop once the candidates are exhausted; a yielded id removes its entry
from the candidates and emits the associated references; a walk error is
passed through. -/
def mapWhileCand : List (Nat × List TestRef) → List (Except Unit Nat) →
    List (Except Unit TestRef)
  | _, [] => []
  | cands, i :: rest =>
    if cands.isEmpty then []
    else
      match i with
      | Except.ok id =>
        let rem := removeCand cands id
        rem.1.map Except.ok ++ mapWhileCand rem.2 rest
      | Except.error e => Except.error e :: mapWhileCand cands rest

/-- The local head's target as a list of zero or one walk heads
(`with_heads(issue.local_head()?.and_then(|h| h.target()))`). -/
def headTargetList (repo : TestRepo) (issue : Nat) : List Nat :=
  match (localHead repo issue).bind (fun h => h.target) with
  | some t => [t]
  | none => []

/-- The parents of the targets of a list of leaf references, in order,
failing when a target does not resolve to a commit (the
`with_heads(issue.repo().find_commit(id)?.parent_ids())` calls of
`CollectableRefs::leaves`). -/
def leafParents (db : Odb) : List TestRef → Except Unit (List Nat)
  | [] => Except.ok []
  | r :: rest =>
    match r.target with
    | some id =>
      match findCommitParents db id with
      | Except.ok ps => (leafParents db rest).map fun l => ps ++ l
      | Except.error e => Except.error e
    | none => leafParents db rest

/-- Preparation of the leaves walk (`CollectableRefs::leaves` before the
iterator is built): ends are the parents of the initial message; the heads
are the local head target followed by the parents of every local leaf
target; the candidates map the leaf targets to their references; the dead
leaves are the local leaves without a target. -/
def gcLeavesPrep (repo : TestRepo) (issue : Nat) :
    Except Unit (List Nat × List Nat × List (Nat × List TestRef) × List TestRef) :=
  match findCommitParents repo.odb issue with
  | Except.error e => Except.error e
  | Except.ok initPs =>
    match gcLeavesScan repo.odb ((localRefs repo issue).filter isLeafRef)
        (headTargetList repo issue) [] [] with
    | Except.error e => Except.error e
    | Except.ok (heap, cands, dead) => Except.ok (initPs, heap, cands, dead)

/-- All collectable leaves for an issue (`CollectableRefs::leaves`): the
dead leaves, then the candidates reached by the combined walk, in walk
order.  The policy configuration plays no role here. -/
def gcLeaves (fuel : Nat) (cfg : GcConfig) (repo : TestRepo) (issue : Nat) :
    Except Unit (List (Except Unit TestRef)) :=
  match gcLeavesPrep repo issue with
  | Except.error e => Except.error e
  | Except.ok (initPs, heap, cands, dead) =>
    Except.ok (dead.map Except.ok ++
      mapWhileCand cands (runSteps repo.odb fuel { heap := heap, ends := initPs }).1)

/-- The heads of the combined walk that `CollectableRefs::leaves` builds. -/
def gcLeavesSeeds (repo : TestRepo) (issue : Nat) : Except Unit (List Nat) :=
  match gcLeavesPrep repo issue with
  | Except.error e => Except.error e
  | Except.ok (_, heap, _, _) => Except.ok heap

/-- The id sequence of the combined walk that `CollectableRefs::leaves`
builds and consumes. -/
def gcLeavesWalk (fuel : Nat) (repo : TestRepo) (issue : Nat) :
    Except Unit (List (Except Unit Nat)) :=
  match gcLeavesPrep repo issue with
  | Except.error e => Except.error e
  | Except.ok (initPs, heap, _, _) =>
    Except.ok (runSteps repo.odb fuel { heap := heap, ends := initPs }).1

/-- Modelled from the spec: the walk heads as the specification words
them — "heads = {Head target} ∪ {all Leaf targets}" — for comparison
with `gcLeavesSeeds`, which is what the code builds. -/
def gcLeavesSeedsSpec (repo : TestRepo) (issue : Nat) : List Nat :=
  headTargetList repo issue ++
    ((localRefs repo issue).filter isLeafRef).filterMap fun r => r.target

/-- All messages of an issue (`Issue::messages`): a walk whose heads are
the targets of every local and remote reference of the issue and whose
ends are the parents of the initial message. -/
def issueMessages (fuel : Nat) (repo : TestRepo) (issue : Nat) :
    Except Unit (List (Except Unit Nat)) :=
  match findCommitParents repo.odb issue with
  | Except.error e => Except.error e
  | Except.ok initPs =>
    let heads := (localRefs repo issue ++ allRemoteRefs repo issue).filterMap
      fun r => r.target
    Except.ok (runSteps repo.odb fuel { heap := heads, ends := initPs }).1

/-- Messages of an issue from a specific tip (`Issue::messages_from`). -/
def issueMessagesFrom (fuel : Nat) (repo : TestRepo) (issue : Nat) (message : Nat) :
    Except Unit (List (Except Unit Nat)) :=
  match findCommitParents repo.odb issue with
  | Except.error e => Except.error e
  | Except.ok initPs =>
    Except.ok (runSteps repo.odb fuel { heap := [message], ends := initPs }).1

theorem candLookup_nil (id : Nat) : candLookup [] id = [] := rfl

theorem candLookup_cons_self (k : Nat) (rs : List TestRef)
    (rest : List (Nat × List TestRef)) :
    candLookup ((k, rs) :: rest) k = rs := by
  simp [candLookup, List.find?]

theorem candLookup_cons_ne {k t : Nat} (hne : k ≠ t) (rs : List TestRef)
    (rest : List (Nat × List TestRef)) :
    candLookup ((k, rs) :: rest) t = candLookup rest t := by
  have h : (k == t) = false := beq_eq_false_iff_ne.mpr hne
  simp [candLookup, List.find?, h]

theorem candLookup_eq_nil_of_not_mem {c : List (Nat × List TestRef)} {id : Nat}
    (h : id ∉ c.map Prod.fst) : candLookup c id = [] := by
  induction c with
  | nil => rfl
  | cons e rest ih =>
    obtain ⟨k, rs⟩ := e
    simp only [List.map_cons, List.mem_cons] at h
    push_neg at h
    rw [candLookup_cons_ne (fun hc => h.1 hc.symm)]
    exact ih h.2

theorem insertCand_cons_self (k : Nat) (rs : List TestRef)
    (rest : List (Nat × List TestRef)) (r : TestRef) :
    insertCand ((k, rs) :: rest) k r = (k, rs ++ [r]) :: rest := by
  simp [insertCand]

theorem insertCand_cons_ne {k id : Nat} (hne : k ≠ id) (rs : List TestRef)
    (rest : List (Nat × List TestRef)) (r : TestRef) :
    insertCand ((k, rs) :: rest) id r = (k, rs) :: insertCand rest id r := by
  simp [insertCand, hne]

theorem candLookup_insertCand (c : List (Nat × List TestRef)) (id : Nat) (r : TestRef)
    (t : Nat) :
    candLookup (insertCand c id r) t =
      if t = id then candLookup c t ++ [r] else candLookup c t := by
  induction c with
  | nil =>
    by_cases ht : t = id
    · subst ht
      rw [if_pos rfl]
      show candLookup [(t, [r])] t = [] ++ [r]
      rw [candLookup_cons_self]
      rfl
    · rw [if_neg ht]
      show candLookup [(id, [r])] t = candLookup [] t
      rw [candLookup_cons_ne (fun hc => ht hc.symm)]
  | cons e rest ih =>
    obtain ⟨k, rs⟩ := e
    by_cases hk : k = id
    · subst hk
      rw [insertCand_cons_self]
      by_cases ht : t = k
      · subst ht
        rw [if_pos rfl, candLookup_cons_self, candLookup_cons_self]
      · rw [if_neg ht, candLookup_cons_ne (fun hc => ht hc.symm),
          candLookup_cons_ne (fun hc => ht hc.symm)]
    · rw [insertCand_cons_ne hk]
      by_cases ht : t = k
      · subst ht
        rw [candLookup_cons_self, if_neg (fun hc : t = id => hk (hc ▸ rfl)), candLookup_cons_self]
      · rw [candLookup_cons_ne (fun hc => ht hc.symm), ih,
          candLookup_cons_ne (fun hc => ht hc.symm)]

theorem candKeys_insertCand (c : List (Nat × List TestRef)) (id : Nat) (r : TestRef) :
    (insertCand c id r).map Prod.fst =
      if id ∈ c.map Prod.fst then c.map Prod.fst else c.map Prod.fst ++ [id] := by
  induction c with
  | nil => simp [insertCand]
  | cons e rest ih =>
    obtain ⟨k, rs⟩ := e
    by_cases hk : k = id
    · subst hk
      rw [insertCand_cons_self]
      simp
    · rw [insertCand_cons_ne hk]
      simp only [List.map_cons, ih, List.mem_cons]
      by_cases hmem : id ∈ rest.map Prod.fst
      · rw [if_pos hmem, if_pos (Or.inr hmem)]
      · have hnomem : ¬(id = k ∨ id ∈ rest.map Prod.fst) := by
          push_neg
          exact ⟨fun hc => hk hc.symm, hmem⟩
        rw [if_neg hmem, if_neg hnomem]
        simp

theorem candKeys_insertCand_nodup {c : List (Nat × List TestRef)} {id : Nat}
    {r : TestRef} (h : (c.map Prod.fst).Nodup) :
    ((insertCand c id r).map Prod.fst).Nodup := by
  rw [candKeys_insertCand]
  by_cases hmem : id ∈ c.map Prod.fst
  · rwa [if_pos hmem]
  · rw [if_neg hmem]
    rw [List.nodup_append]
    exact ⟨h, List.nodup_singleton id, by simpa using hmem⟩

theorem removeCand_cons_self (k : Nat) (rs : List TestRef)
    (rest : List (Nat × List TestRef)) :
    removeCand ((k, rs) :: rest) k = (rs, rest) := by
  simp [removeCand]

theorem removeCand_cons_ne {k id : Nat} (hne : k ≠ id) (rs : List TestRef)
    (rest : List (Nat × List TestRef)) :
    removeCand ((k, rs) :: rest) id =
      ((removeCand rest id).1, (k, rs) :: (removeCand rest id).2) := by
  simp [removeCand, hne]

theorem removeCand_fst (c : List (Nat × List TestRef)) (id : Nat) :
    (removeCand c id).1 = candLookup c id := by
  induction c with
  | nil => rfl
  | cons e rest ih =>
    obtain ⟨k, rs⟩ := e
    by_cases hk : k = id
    · subst hk
      rw [removeCand_cons_self, candLookup_cons_self]
    · rw [removeCand_cons_ne hk, candLookup_cons_ne hk]
      exact ih

theorem candKeys_removeCand_sublist (c : List (Nat × List TestRef)) (id : Nat) :
    ((removeCand c id).2.map Prod.fst).Sublist (c.map Prod.fst) := by
  induction c with
  | nil => simp [removeCand]
  | cons e rest ih =>
    obtain ⟨k, rs⟩ := e
    by_cases hk : k = id
    · subst hk
      rw [removeCand_cons_self]
      simp only [List.map_cons]
      exact List.sublist_cons_of_sublist _ (List.Sublist.refl _)
    · rw [removeCand_cons_ne hk]
      simp only [List.map_cons]
      exact List.Sublist.cons₂ _ ih

theorem candLookup_removeCand {c : List (Nat × List TestRef)}
    (hnd : (c.map Prod.fst).Nodup) (id t : Nat) :
    candLookup (removeCand c id).2 t = if t = id then [] else candLookup c t := by
  induction c with
  | nil =>
    by_cases ht : t = id
    · rw [if_pos ht]
      rfl
    · rw [if_neg ht]
      rfl
  | cons e rest ih =>
    obtain ⟨k, rs⟩ := e
    simp only [List.map_cons, List.nodup_cons] at hnd
    by_cases hk : k = id
    · subst hk
      rw [removeCand_cons_self]
      by_cases ht : t = k
      · subst ht
        rw [if_pos rfl]
        exact candLookup_eq_nil_of_not_mem hnd.1
      · rw [if_neg ht, candLookup_cons_ne (fun hc => ht hc.symm)]
    · rw [removeCand_cons_ne hk]
      by_cases ht : t = k
      · subst ht
        rw [candLookup_cons_self, if_neg (fun hc : t = id => hk (hc ▸ rfl)),
          candLookup_cons_self]
      · rw [candLookup_cons_ne (fun hc => ht hc.symm), ih hnd.2]
        by_cases htid : t = id
        · rw [if_pos htid, if_pos htid]
        · rw [if_neg htid, if_neg htid, candLookup_cons_ne (fun hc => ht hc.symm)]

theorem mapWhileCand_ok_mem {cands : List (Nat × List TestRef)}
    {items : List (Except Unit Nat)} (hnd : (cands.map Prod.fst).Nodup)
    (r : TestRef) :
    Except.ok r ∈ mapWhileCand cands items ↔
      ∃ k, r ∈ candLookup cands k ∧ k ∈ okIds items := by
  induction items generalizing cands with
  | nil =>
    simp [mapWhileCand, okIds]
  | cons i rest ih =>
    cases hemp : cands.isEmpty with
    | true =>
      have hnil : cands = [] := List.isEmpty_iff.mp hemp
      subst hnil
      simp [mapWhileCand, candLookup_nil]
    | false =>
      cases i with
      | error e =>
        rw [mapWhileCand]
        rw [hemp]
        simp only [Bool.false_eq_true, if_false]
        rw [show okIds (Except.error e :: rest) = okIds rest from rfl]
        constructor
        · intro hmem
          rcases List.mem_cons.mp hmem with heq | hmem2
          · exact absurd heq (by simp)
          · exact (ih hnd).mp hmem2
        · intro hex
          exact List.mem_cons_of_mem _ ((ih hnd).mpr hex)
      | ok id =>
        rw [mapWhileCand]
        rw [hemp]
        simp only [Bool.false_eq_true, if_false]
        rw [show okIds (Except.ok id :: rest) = id :: okIds rest from rfl]
        have hnd' : ((removeCand cands id).2.map Prod.fst).Nodup :=
          (candKeys_removeCand_sublist cands id).nodup hnd
        constructor
        · intro hmem
          rcases List.mem_append.mp hmem with hleft | hright
        -- the emitted references for the popped id
          · obtain ⟨r', hr', hr'eq⟩ := List.mem_map.mp hleft
            have : r' = r := by injection hr'eq
            subst this
            rw [removeCand_fst] at hr'
            exact ⟨id, hr', List.mem_cons_self _ _⟩
          · obtain ⟨k, hk1, hk2⟩ := (ih hnd').mp hright
            rw [candLookup_removeCand hnd] at hk1
            by_cases hkid : k = id
            · rw [if_pos hkid] at hk1
              exact absurd hk1 (by simp)
            · rw [if_neg hkid] at hk1
              exact ⟨k, hk1, List.mem_cons_of_mem _ hk2⟩
        · rintro ⟨k, hk1, hk2⟩
          by_cases hkid : k = id
          · subst hkid
            refine List.mem_append.mpr (Or.inl ?_)
            rw [← removeCand_fst] at hk1
            exact List.mem_map.mpr ⟨r, hk1, rfl⟩
          · rcases List.mem_cons.mp hk2 with heq | hk2'
            · exact absurd heq hkid
            · refine List.mem_append.mpr (Or.inr ?_)
              refine (ih hnd').mpr ⟨k, ?_, hk2'⟩
              rw [candLookup_removeCand hnd, if_neg hkid]
              exact hk1

theorem gcLeavesScan_spec (db : Odb) :
    ∀ (input : List TestRef) (heap : List Nat) (cands : List (Nat × List TestRef))
      (dead : List TestRef) (heap' : List Nat) (cands' : List (Nat × List TestRef))
      (dead' : List TestRef),
      gcLeavesScan db input heap cands dead = Except.ok (heap', cands', dead') →
      (∃ L, leafParents db input = Except.ok L ∧ heap' = heap ++ L) ∧
      (∀ t, candLookup cands' t = candLookup cands t ++
        (input.filter fun r => r.target == some t)) ∧
      dead' = dead ++ input.filter (fun r => r.target.isNone) ∧
      ((cands.map Prod.fst).Nodup → (cands'.map Prod.fst).Nodup) := by
  intro input
  induction input with
  | nil =>
    intro heap cands dead heap' cands' dead' h
    rw [gcLeavesScan] at h
    injection h with h'
    injection h' with e1 e23
    injection e23 with e2 e3
    subst e1
    subst e2
    subst e3
    refine ⟨⟨[], rfl, by simp⟩, ?_, by simp, fun hx => hx⟩
    intro t
    simp
  | cons r rest ih =>
    intro heap cands dead heap' cands' dead' h
    rw [gcLeavesScan] at h
    cases htgt : r.target with
    | some id =>
      simp only [htgt] at h
      cases hfc : findCommitParents db id with
      | error e =>
        simp only [hfc] at h
        exact absurd h (by simp)
      | ok ps =>
        simp only [hfc] at h
        obtain ⟨⟨L, hL, hheap⟩, hlook, hdead, hnd⟩ :=
          ih (heap ++ ps) (insertCand cands id r) dead heap' cands' dead' h
        refine ⟨⟨ps ++ L, ?_, by rw [hheap, List.append_assoc]⟩, ?_, ?_, ?_⟩
        · simp only [leafParents, htgt, hfc, hL]
          rfl
        · intro t
          rw [hlook t, candLookup_insertCand, List.filter_cons]
          by_cases ht : t = id
          · subst ht
            rw [if_pos rfl]
            have hbeq : (r.target == some t) = true := by
              rw [htgt]
              exact beq_self_eq_true _
            rw [hbeq]
            simp [List.append_assoc]
          · rw [if_neg ht]
            have hbeq : (r.target == some t) = false := by
              rw [htgt]
              simp only [beq_eq_false_iff_ne, ne_eq]
              intro hc
              injection hc with hc'
              exact ht hc'.symm
            rw [hbeq]
            simp
        · rw [hdead, List.filter_cons]
          have hnone : (r.target.isNone) = false := by rw [htgt]; rfl
          rw [hnone]
          simp
        · intro hnd0
          exact hnd (candKeys_insertCand_nodup hnd0)
    | none =>
      simp only [htgt] at h
      obtain ⟨⟨L, hL, hheap⟩, hlook, hdead, hnd⟩ :=
        ih heap cands (dead ++ [r]) heap' cands' dead' h
      refine ⟨⟨L, ?_, hheap⟩, ?_, ?_, hnd⟩
      · simp only [leafParents, htgt]
        exact hL
      · intro t
        rw [hlook t, List.filter_cons]
        have hbeq : (r.target == some t) = false := by
          rw [htgt]
          rfl
        rw [hbeq]
        simp
      · rw [hdead, List.filter_cons]
        have hnone : (r.target.isNone) = true := by rw [htgt]; rfl
        rw [hnone]
        simp

theorem gcLeavesPrep_inv {repo : TestRepo} {issue : Nat} {initPs heap : List Nat}
    {cands : List (Nat × List TestRef)} {dead : List TestRef}
    (h : gcLeavesPrep repo issue = Except.ok (initPs, heap, cands, dead)) :
    findCommitParents repo.odb issue = Except.ok initPs ∧
    gcLeavesScan repo.odb ((localRefs repo issue).filter isLeafRef)
      (headTargetList repo issue) [] [] = Except.ok (heap, cands, dead) := by
  unfold gcLeavesPrep at h
  cases hfc : findCommitParents repo.odb issue with
  | error e =>
    simp only [hfc] at h
    exact absurd h (by simp)
  | ok initPs0 =>
    simp only [hfc] at h
    cases hsc : gcLeavesScan repo.odb ((localRefs repo issue).filter isLeafRef)
        (headTargetList repo issue) [] [] with
    | error e =>
      simp only [hsc] at h
      exact absurd h (by simp)
    | ok res =>
      obtain ⟨heap0, cands0, dead0⟩ := res
      simp only [hsc] at h
      injection h with h'
      injection h' with e1 e234
      injection e234 with e2 e34
      injection e34 with e3 e4
      subst e1
      subst e2
      subst e3
      subst e4
      exact ⟨rfl, rfl⟩

theorem gcLeaves_eq {fuel : Nat} {cfg : GcConfig} {repo : TestRepo} {issue : Nat}
    {initPs heap : List Nat} {cands : List (Nat × List TestRef)} {dead : List TestRef}
    (hprep : gcLeavesPrep repo issue = Except.ok (initPs, heap, cands, dead)) :
    gcLeaves fuel cfg repo issue = Except.ok (dead.map Except.ok ++
      mapWhileCand cands (runSteps repo.odb fuel { heap := heap, ends := initPs }).1) := by
  simp only [gcLeaves, hprep]

/-! ## Claims C1, C3 and C8

Scenario repositories.  Issue B is the spec's scenario: root `b0` (id 0),
a reply `b1` (id 1), the local head at `b1`, and local leaf references for
both `b0` and `b1`. -/

/-- Path of a local leaf reference (`Issue::add_leaf`). -/
def leafRefPath (issue m : Nat) : RefPath :=
  ["refs", DIT_REF_PART, formatOid issue, LEAF_COMPONENT, formatOid m]

/-- Issue B: the local head reference, pointing at the reply. -/
def refHeadB : TestRef := { name := localHeadPath 0, target := some 1 }

/-- Issue B: the leaf reference for the root message. -/
def refLeafB0 : TestRef := { name := leafRefPath 0 0, target := some 0 }

/-- Issue B: the leaf reference for the reply. -/
def refLeafB1 : TestRef := { name := leafRefPath 0 1, target := some 1 }

/-- The repository of scenario B. -/
def repoB : TestRepo :=
  { refs := [refHeadB, refLeafB0, refLeafB1],
    remotes := [],
    odb := [(0, TestObject.commit []), (1, TestObject.commit [0])] }

/-- A garbage-collection configuration with head collection enabled. -/
def gcConfigB : GcConfig :=
  { consider_remote_refs := false,
    collect_heads := ReferenceCollectionSpec.backedByRemoteHead }

/-- C1 counterexample: in scenario B the garbage collector reports the
leaf for `b1` as collectable as well — its target equals the local head's
target, which seeds the walk — so the collectable set is not exactly
`{leaves/b0}` as claimed. -/
theorem gc_leaves_scenario_counterexample :
    gcLeaves 2 gcConfigB repoB 0 =
      Except.ok [Except.ok refLeafB1, Except.ok refLeafB0] := rfl

/-- C1 (amended): a local leaf reference with a resolvable target is
reported collectable exactly when its target is visited by the combined
walk, that is, reachable within the issue boundary from the local head's
target or from a parent of some local leaf's target (a strict ancestor of
a leaf tip, or an ancestor of — or equal to — the head tip). -/
theorem gc_leaves_collectable_iff
    (fuel : Nat) (cfg : GcConfig) (repo : TestRepo) (issue : Nat)
    (initPs heap : List Nat) (cands : List (Nat × List TestRef)) (dead : List TestRef)
    (l : List (Except Unit TestRef)) (r : TestRef) (t : Nat)
    (hwfb : wfParentsB repo.odb = true)
    (hprep : gcLeavesPrep repo issue = Except.ok (initPs, heap, cands, dead))
    (hhc : heapCommitsB repo.odb heap = true)
    (hterm : ((runSteps repo.odb fuel { heap := heap, ends := initPs }).2).heap = [])
    (hl : gcLeaves fuel cfg repo issue = Except.ok l)
    (hr : r ∈ (localRefs repo issue).filter isLeafRef)
    (ht : r.target = some t) :
    Except.ok r ∈ l ↔ Reach repo.odb heap initPs t := by
  obtain ⟨hfc, hscan⟩ := gcLeavesPrep_inv hprep
  obtain ⟨⟨L, hL, hheap⟩, hlook, hdead, hnd⟩ := gcLeavesScan_spec _ _ _ _ _ _ _ _ hscan
  have hnd0 : (cands.map Prod.fst).Nodup := hnd (by simp)
  have hleq := @gcLeaves_eq fuel cfg repo issue initPs heap cands dead hprep
  rw [hl] at hleq
  have hleq2 : l = dead.map Except.ok ++
      mapWhileCand cands (runSteps repo.odb fuel { heap := heap, ends := initPs }).1 :=
    Except.ok.inj hleq
  subst hleq2
  have hnotdead : (Except.ok r : Except Unit TestRef) ∉ dead.map Except.ok := by
    intro hcon
    obtain ⟨r', hr', hreq⟩ := List.mem_map.mp hcon
    have hr'r : r' = r := by injection hreq
    rw [hr'r, hdead, List.nil_append] at hr'
    have h2 : r.target.isNone = true := (List.mem_filter.mp hr').2
    rw [ht] at h2
    exact Bool.noConfusion h2
  rw [List.mem_append]
  constructor
  · intro hmem
    rcases hmem with hdeadmem | hwalkmem
    · exact absurd hdeadmem hnotdead
    · obtain ⟨k, hk1, hk2⟩ := (mapWhileCand_ok_mem hnd0 r).mp hwalkmem
      rw [hlook k, candLookup_nil, List.nil_append] at hk1
      have hbeq : (r.target == some k) = true := (List.mem_filter.mp hk1).2
      have hkt : k = t := by
        rw [ht] at hbeq
        have h2 := eq_of_beq hbeq
        injection h2 with h3
        exact h3.symm
      subst hkt
      have hok : Except.ok k ∈ (runSteps repo.odb fuel { heap := heap, ends := initPs }).1 :=
        okIds_mem_iff.mp hk2
      exact (runSteps_ok_mem_iff_reach (wfParentsB_spec hwfb) (heapCommitsB_spec hhc)
        hterm k).mp hok
  · intro hreach
    refine Or.inr ?_
    refine (mapWhileCand_ok_mem hnd0 r).mpr ⟨t, ?_, ?_⟩
    · rw [hlook t]
      simp only [candLookup_nil, List.nil_append]
      refine List.mem_filter.mpr ⟨hr, ?_⟩
      rw [ht]
      exact beq_self_eq_true _
    · refine okIds_mem_iff.mpr ?_
      exact (runSteps_ok_mem_iff_reach (wfParentsB_spec hwfb) (heapCommitsB_spec hhc)
        hterm t).mpr hreach

/-- C1 witness: in scenario B the leaf for `b0` is reported collectable
(its target is a strict ancestor of the other tips). -/
theorem gc_leaves_collectable_iff_witness :
    (Except.ok refLeafB0 : Except Unit TestRef) ∈
      [Except.ok refLeafB1, Except.ok refLeafB0] :=
  (gc_leaves_collectable_iff 2 gcConfigB repoB 0 [] [1, 0]
      [(0, [refLeafB0]), (1, [refLeafB1])] []
      [Except.ok refLeafB1, Except.ok refLeafB0] refLeafB0 0
      rfl rfl rfl rfl rfl (by decide) rfl).mpr
    (Reach.head (by decide))

/-- Issue A: a single root message with its own leaf and nothing else. -/
def refLeafA0 : TestRef := { name := leafRefPath 0 0, target := some 0 }

/-- The repository of scenario A. -/
def repoA : TestRepo :=
  { refs := [refLeafA0], remotes := [], odb := [(0, TestObject.commit [])] }

/-- C3 counterexample: the combined traversal's heads are not the head
target together with the leaf targets.  In scenario A (one root, its leaf,
no head) the code seeds no head at all — it seeds the parents of the leaf
target — while the claimed head set is `{a0}`. -/
theorem gc_leaves_seeds_counterexample :
    gcLeavesSeeds repoA 0 = Except.ok [] ∧
    gcLeavesSeedsSpec repoA 0 = [0] ∧
    (Except.ok [] : Except Unit (List Nat)) ≠ Except.ok [0] :=
  ⟨rfl, rfl, by simp⟩

/-- C3 (amended): `CollectableRefs::leaves` builds exactly one combined
traversal whose heads are the local head's target followed by the parents
of every local leaf's target, whose ends are the parents of the issue's
initial message; the candidates map each leaf target to its references,
the dead leaves are the target-less leaves, and while walking each visited
id still in the candidates is removed and its references are emitted. -/
theorem gc_leaves_walk_structure
    (fuel : Nat) (cfg : GcConfig) (repo : TestRepo) (issue : Nat)
    (initPs heap : List Nat) (cands : List (Nat × List TestRef)) (dead : List TestRef)
    (hprep : gcLeavesPrep repo issue = Except.ok (initPs, heap, cands, dead)) :
    findCommitParents repo.odb issue = Except.ok initPs ∧
    (∃ L, leafParents repo.odb ((localRefs repo issue).filter isLeafRef) = Except.ok L ∧
      heap = headTargetList repo issue ++ L) ∧
    (∀ t, candLookup cands t =
      ((localRefs repo issue).filter isLeafRef).filter fun r => r.target == some t) ∧
    dead = ((localRefs repo issue).filter isLeafRef).filter (fun r => r.target.isNone) ∧
    gcLeaves fuel cfg repo issue = Except.ok (dead.map Except.ok ++
      mapWhileCand cands (runSteps repo.odb fuel { heap := heap, ends := initPs }).1) ∧
    (∀ r, Except.ok r ∈ mapWhileCand cands
        (runSteps repo.odb fuel { heap := heap, ends := initPs }).1 ↔
      ∃ k, r ∈ candLookup cands k ∧
        k ∈ okIds (runSteps repo.odb fuel { heap := heap, ends := initPs }).1) := by
  obtain ⟨hfc, hscan⟩ := gcLeavesPrep_inv hprep
  obtain ⟨⟨L, hL, hheap⟩, hlook, hdead, hnd⟩ := gcLeavesScan_spec _ _ _ _ _ _ _ _ hscan
  have hnd0 : (cands.map Prod.fst).Nodup := hnd (by simp)
  refine ⟨hfc, ⟨L, hL, hheap⟩, ?_, by simpa using hdead, gcLeaves_eq hprep, ?_⟩
  · intro t
    simpa using hlook t
  · intro r
    exact mapWhileCand_ok_mem hnd0 r

/-- C3 witness: the structure theorem instantiated on scenario B gives the
collectable list of the scenario. -/
theorem gc_leaves_walk_structure_witness :
    gcLeaves 2 gcConfigB repoB 0 = Except.ok (([] : List TestRef).map Except.ok ++
      mapWhileCand [(0, [refLeafB0]), (1, [refLeafB1])]
        (runSteps repoB.odb 2 { heap := [1, 0], ends := [] }).1) :=
  (gc_leaves_walk_structure 2 gcConfigB repoB 0 [] [1, 0]
    [(0, [refLeafB0]), (1, [refLeafB1])] [] rfl).2.2.2.2.1

/-- C8: a local leaf reference without a resolvable target is always in
the dead leaves: whenever the computation succeeds it is reported
collectable under every policy configuration, it stands before every
walk-derived item of the report, and it does not participate in the walk
(it is in no candidate entry). -/
theorem gc_dead_leaves_reported
    (fuel : Nat) (cfg : GcConfig) (repo : TestRepo) (issue : Nat)
    (initPs heap : List Nat) (cands : List (Nat × List TestRef)) (dead : List TestRef)
    (l : List (Except Unit TestRef)) (r : TestRef)
    (hprep : gcLeavesPrep repo issue = Except.ok (initPs, heap, cands, dead))
    (hl : gcLeaves fuel cfg repo issue = Except.ok l)
    (hr : r ∈ (localRefs repo issue).filter isLeafRef)
    (ht : r.target = none) :
    Except.ok r ∈ l ∧
    (∃ rest, l = dead.map Except.ok ++ rest) ∧
    r ∈ dead ∧
    (∀ k, r ∉ candLookup cands k) := by
  obtain ⟨hfc, hscan⟩ := gcLeavesPrep_inv hprep
  obtain ⟨⟨L, hL, hheap⟩, hlook, hdead, hnd⟩ := gcLeavesScan_spec _ _ _ _ _ _ _ _ hscan
  have hleq := @gcLeaves_eq fuel cfg repo issue initPs heap cands dead hprep
  rw [hl] at hleq
  have hleq2 : l = dead.map Except.ok ++
      mapWhileCand cands (runSteps repo.odb fuel { heap := heap, ends := initPs }).1 :=
    Except.ok.inj hleq
  have hrdead : r ∈ dead := by
    rw [hdead, List.nil_append]
    refine List.mem_filter.mpr ⟨hr, ?_⟩
    show r.target.isNone = true
    rw [ht]
    rfl
  refine ⟨?_, ⟨_, hleq2⟩, hrdead, ?_⟩
  · rw [hleq2]
    exact List.mem_append.mpr (Or.inl (List.mem_map.mpr ⟨r, hrdead, rfl⟩))
  · intro k hcon
    rw [hlook k, candLookup_nil, List.nil_append] at hcon
    have h2 : (r.target == some k) = true := (List.mem_filter.mp hcon).2
    rw [ht] at h2
    exact Bool.noConfusion h2

/-- A repository with a single dead leaf: the leaf reference has no
target. -/
def refLeafD : TestRef := { name := leafRefPath 0 1, target := none }

/-- The repository of the dead-leaf scenario. -/
def repoD : TestRepo :=
  { refs := [refLeafD], remotes := [], odb := [(0, TestObject.commit [])] }

/-- C8 witness: the dead leaf of the dead-leaf scenario is reported. -/
theorem gc_dead_leaves_reported_witness :
    (Except.ok refLeafD : Except Unit TestRef) ∈ [Except.ok refLeafD] :=
  (gc_dead_leaves_reported 1 gcConfigB repoD 0 [] [] [] [refLeafD]
    [Except.ok refLeafD] refLeafD rfl rfl (by decide) rfl).1

/-! ## Claim C2 -/

theorem list_any_ok_iff (out : List (Except Unit Nat)) (t : Nat) :
    (out.any fun i => match i with
      | Except.ok x => x == t
      | Except.error _ => false) = true ↔ Except.ok t ∈ out := by
  induction out with
  | nil => simp
  | cons i rest ih =>
    cases i with
    | ok x =>
      simp only [List.any_cons, Bool.or_eq_true, ih, List.mem_cons]
      constructor
      · rintro (hx | hm)
        · exact Or.inl (by rw [eq_of_beq hx])
        · exact Or.inr hm
      · rintro (hx | hm)
        · refine Or.inl ?_
          injection hx with h'
          exact beq_of_eq h'.symm
        · exact Or.inr hm
    | error e =>
      simp only [List.any_cons, Bool.false_or, ih, List.mem_cons]
      constructor
      · exact Or.inr
      · rintro (hx | hm)
        · exact absurd hx (by simp)
        · exact hm

theorem ok_if_some_iff (b : Bool) (h : TestRef) :
    ((Except.ok (if b then some h else none) : Except Unit (Option TestRef)) =
      Except.ok (some h)) ↔ b = true := by
  cases b <;> simp

/-- C2: `CollectableRefs::head` follows the policy: under `Never` it
reports nothing for every repository state; under `BackedByRemoteHead` a
local head without target is reported collectable outright, and a local
head with a target is reported collectable exactly when the target is
visited by the bounded walk from the remote head targets (ends at the
parents of the initial message). -/
theorem gc_head_policy_spec :
    (∀ fuel cfg repo issue, cfg.collect_heads = ReferenceCollectionSpec.never →
      gcHead fuel cfg repo issue = Except.ok none) ∧
    (∀ fuel cfg repo issue h,
      cfg.collect_heads = ReferenceCollectionSpec.backedByRemoteHead →
      localHead repo issue = some h → h.target = none →
      gcHead fuel cfg repo issue = Except.ok (some h)) ∧
    (∀ fuel cfg repo issue h t initPs,
      cfg.collect_heads = ReferenceCollectionSpec.backedByRemoteHead →
      localHead repo issue = some h → h.target = some t →
      findCommitParents repo.odb issue = Except.ok initPs →
      WfParents repo.odb →
      HeapCommits repo.odb ((allRemoteHeads repo issue).filterMap fun r => r.target) →
      ((runSteps repo.odb fuel
        { heap := (allRemoteHeads repo issue).filterMap fun r => r.target,
          ends := initPs }).2).heap = [] →
      (gcHead fuel cfg repo issue = Except.ok (some h) ↔
        Reach repo.odb ((allRemoteHeads repo issue).filterMap fun r => r.target)
          initPs t)) := by
  refine ⟨?_, ?_, ?_⟩
  · intro fuel cfg repo issue hcfg
    cases hlh : localHead repo issue with
    | none => simp only [gcHead, hlh]
    | some h => simp only [gcHead, hlh, hcfg]
  · intro fuel cfg repo issue h hcfg hlh hht
    simp only [gcHead, hlh, hcfg, hht]
  · intro fuel cfg repo issue h t initPs hcfg hlh hht hfc hwf hhc hterm
    simp only [gcHead, hlh, hcfg, hht, hfc]
    rw [ok_if_some_iff]
    exact (list_any_ok_iff _ t).trans (runSteps_ok_mem_iff_reach hwf hhc hterm t)

/-! ## Claim C9 -/

/-- An issue whose root message has a parent outside the issue: the leaf
reference targets the root itself. -/
def refLeafC : TestRef := { name := leafRefPath 11 11, target := some 11 }

/-- The repository of the boundary scenario: message 10 lies outside
issue 11 (it is a parent of the initial message). -/
def repoC : TestRepo :=
  { refs := [refLeafC], remotes := [],
    odb := [(10, TestObject.commit []), (11, TestObject.commit [10])] }

/-- C9 counterexample: the GC's leaves walk yields id 10 — a parent of
issue 11's initial message, hence outside the issue's boundary — because
the walk is seeded with the parents of the leaf targets, and those
parents are pushed as heads, which the traversal always yields. -/
theorem gc_walk_crosses_boundary_counterexample :
    findCommitParents repoC.odb 11 = Except.ok [10] ∧
    gcLeavesWalk 1 repoC 11 = Except.ok [Except.ok 10] ∧
    (10 : Nat) ∈ [10] :=
  ⟨rfl, rfl, by decide⟩

/-- C9 (amended): every id yielded by `Issue::messages`,
`Issue::messages_from` or the GC's leaves walk is reachable from that
walk's heads without passing through a parent of the issue's initial
message, and a yielded id that IS such a parent must itself be one of the
walk's heads (the seeds are not filtered against the ends). -/
theorem issue_walk_boundary_spec :
    (∀ fuel repo issue initPs out,
      findCommitParents repo.odb issue = Except.ok initPs →
      issueMessages fuel repo issue = Except.ok out →
      ∀ x, Except.ok x ∈ out →
        Reach repo.odb
          ((localRefs repo issue ++ allRemoteRefs repo issue).filterMap
            fun r => r.target) initPs x ∧
        (x ∈ initPs →
          x ∈ (localRefs repo issue ++ allRemoteRefs repo issue).filterMap
            fun r => r.target)) ∧
    (∀ fuel repo issue initPs message out,
      findCommitParents repo.odb issue = Except.ok initPs →
      issueMessagesFrom fuel repo issue message = Except.ok out →
      ∀ x, Except.ok x ∈ out →
        Reach repo.odb [message] initPs x ∧ (x ∈ initPs → x = message)) ∧
    (∀ fuel repo issue initPs heap cands dead out,
      gcLeavesPrep repo issue = Except.ok (initPs, heap, cands, dead) →
      gcLeavesWalk fuel repo issue = Except.ok out →
      ∀ x, Except.ok x ∈ out →
        Reach repo.odb heap initPs x ∧ (x ∈ initPs → x ∈ heap)) := by
  refine ⟨?_, ?_, ?_⟩
  · intro fuel repo issue initPs out hfc hout x hx
    simp only [issueMessages, hfc] at hout
    have hout2 := Except.ok.inj hout
    subst hout2
    have hreach := runSteps_sound fuel _ rfl (fun z hz => Reach.head hz) x hx
    exact ⟨hreach, fun hxe => reach_end_mem_heads hreach hxe⟩
  · intro fuel repo issue initPs message out hfc hout x hx
    simp only [issueMessagesFrom, hfc] at hout
    have hout2 := Except.ok.inj hout
    subst hout2
    have hreach := runSteps_sound fuel _ rfl (fun z hz => Reach.head hz) x hx
    exact ⟨hreach, fun hxe => List.mem_singleton.mp (reach_end_mem_heads hreach hxe)⟩
  · intro fuel repo issue initPs heap cands dead out hprep hout x hx
    simp only [gcLeavesWalk, hprep] at hout
    have hout2 := Except.ok.inj hout
    subst hout2
    have hreach := runSteps_sound fuel _ rfl (fun z hz => Reach.head hz) x hx
    exact ⟨hreach, fun hxe => reach_end_mem_heads hreach hxe⟩

/-! ## Claim C7 -/

/-- A repository with an existing local head for issue 0, pointing at
message 5. -/
def refHeadH : TestRef := { name := localHeadPath 0, target := some 5 }

/-- The repository of the update-head scenario. -/
def repoH : TestRepo := { refs := [refHeadH], remotes := [], odb := [] }

/-- C7: `Issue::update_head` over the test store with the overwrite flag
false and a local head already present does NOT fail — it reports success
with the would-be new reference while leaving the store unchanged (the
silent no-op the spec forbids); with the flag true it replaces the
head. -/
theorem update_head_no_overwrite_silent_noop :
    (updateHead repoH 0 7 false).2 =
      Except.ok { name := localHeadPath 0, target := some 7 } ∧
    (updateHead repoH 0 7 false).1.refs = [refHeadH] ∧
    localHead (updateHead repoH 0 7 false).1 0 = some refHeadH ∧
    (updateHead repoH 0 7 true).1.refs =
      [{ name := localHeadPath 0, target := some 7 }] ∧
    localHead (updateHead repoH 0 7 true).1 0 =
      some { name := localHeadPath 0, target := some 7 } :=
  ⟨rfl, rfl, rfl, rfl, rfl⟩

/-! ## Claim C6

The canonical parser `parseOid` above covers the store's canonical id
form, on which `TestOid::from_str` and `Display` agree.  Outside that
domain `TestOid::from_str` (base.rs) behaves differently: it reads twenty
two-character chunks with `str::split_at(2)` and `u8::from_str_radix`,
so it panics when fewer than two characters remain, accepts uppercase
and sign-prefixed chunks, and ignores every character past the fortieth.
The definitions below embed that behaviour. -/

/-- Value of a hex digit as `u8::from_str_radix` accepts it: either
case. -/
def hexValAny (c : Char) : Option Nat :=
  if isHexDigitLower c then some (hexVal c)
  else if c = 'A' then some 10 else if c = 'B' then some 11
  else if c = 'C' then some 12 else if c = 'D' then some 13
  else if c = 'E' then some 14 else if c = 'F' then some 15
  else none

/-- `u8::from_str_radix(part, 16)` on a two-character chunk: two hex
digits, or a `+` sign before one digit, or a `-` sign before a zero
digit (negative zero is the only in-range signed-negative value). -/
def chunkVal (c1 c2 : Char) : Option Nat :=
  match hexValAny c1, hexValAny c2 with
  | some h, some l => some (16 * h + l)
  | _, _ =>
    if c1 = '+' then hexValAny c2
    else if c1 = '-' then
      match hexValAny c2 with
      | some 0 => some 0
      | _ => none
    else none

/-- Outcome of `TestOid::from_str`: a parsed id with the ignored
remainder of the input, a returned error, or an abort of the program
(`str::split_at` past the end of the string). -/
inductive ParseOutcome where
  | panicked : ParseOutcome
  | failed : ParseOutcome
  | parsed (id : Nat) (rest : List Char) : ParseOutcome
deriving DecidableEq, Repr

/-- The chunk loop of `TestOid::from_str`: `i` chunks still to read,
accumulating the twenty bytes big-endian. -/
def fromStrLoop : Nat → List Char → Nat → ParseOutcome
  | 0, rest, acc => ParseOutcome.parsed acc rest
  | i + 1, c1 :: c2 :: rest, acc =>
    match chunkVal c1 c2 with
    | some v => fromStrLoop i rest (acc * 256 + v)
    | none => ParseOutcome.failed
  | _ + 1, _, _ => ParseOutcome.panicked

/-- `TestOid::from_str`. -/
def fromStr (s : String) : ParseOutcome := fromStrLoop 20 s.data 0

/-- Outcome of `Reference::parts` over the test store: parts, no parts,
or an abort inherited from `TestOid::from_str`. -/
inductive PartsOutcome where
  | panicked : PartsOutcome
  | noParts : PartsOutcome
  | parts (pr : RefParts) : PartsOutcome
deriving DecidableEq, Repr

/-- `Reference::parts` with the test store's actual id parser
(`.parse().ok()?` on the issue and leaf components): same shape analysis
as `refParts`, but each id component goes through `fromStr`, whose panic
propagates and whose error becomes no parts. -/
def refPartsReal (p : RefPath) : PartsOutcome :=
  if pathFileName p = some HEAD_COMPONENT then
    match pathParent p with
    | none => PartsOutcome.noParts
    | some p1 =>
      match pathFileName p1 with
      | none => PartsOutcome.noParts
      | some s =>
        match fromStr s with
        | ParseOutcome.panicked => PartsOutcome.panicked
        | ParseOutcome.failed => PartsOutcome.noParts
        | ParseOutcome.parsed issue _ =>
          match pathParent p1 with
          | none => PartsOutcome.noParts
          | some pfx => PartsOutcome.parts ⟨pfx, issue, RefKind.head⟩
  else
    match pathFileName p with
    | none => PartsOutcome.noParts
    | some t =>
      match fromStr t with
      | ParseOutcome.panicked => PartsOutcome.panicked
      | ParseOutcome.failed => PartsOutcome.noParts
      | ParseOutcome.parsed m _ =>
        match pathParent p with
        | none => PartsOutcome.noParts
        | some p1 =>
          if pathFileName p1 = some LEAF_COMPONENT then
            match pathParent p1 with
            | none => PartsOutcome.noParts
            | some p2 =>
              match pathFileName p2 with
              | none => PartsOutcome.noParts
              | some s =>
                match fromStr s with
                | ParseOutcome.panicked => PartsOutcome.panicked
                | ParseOutcome.failed => PartsOutcome.noParts
                | ParseOutcome.parsed issue _ =>
                  match pathParent p2 with
                  | none => PartsOutcome.noParts
                  | some pfx => PartsOutcome.parts ⟨pfx, issue, RefKind.leaf m⟩
          else PartsOutcome.noParts

/-- A head path whose issue id is too short for twenty chunks. -/
def shortHeadPath : RefPath := ["refs", DIT_REF_PART, "ab", HEAD_COMPONENT]

/-- A forty-character uppercase issue id. -/
def upperOidStr : String := ⟨'A' :: 'B' :: List.replicate 38 '0'⟩

/-- A head path with the uppercase issue id. -/
def upperHeadPath : RefPath := ["refs", DIT_REF_PART, upperOidStr, HEAD_COMPONENT]

/-- An issue id with a trailing character past the fortieth. -/
def trailingOidStr : String := ⟨List.replicate 40 '0' ++ ['z']⟩

/-- A head path with the trailing-character issue id. -/
def trailingHeadPath : RefPath :=
  ["refs", DIT_REF_PART, trailingOidStr, HEAD_COMPONENT]

/-- C6: the claim fails on the program.  `Reference::parts` is not total
and does error: on `refs/dit/ab/head` the id parser `TestOid::from_str`
panics (`str::split_at(2)` past the end of `"ab"`), aborting instead of
yielding no parts; and it does not return `None` on every path outside
the canonical grammar: a head path with an uppercase issue id, or with
characters after the fortieth, is accepted (`Some` parts) although the
canonical parser `parseOid` — the form `Display` produces and the
round-trip grammar uses — rejects those ids. -/
theorem reference_parts_code_bug :
    refPartsReal shortHeadPath = PartsOutcome.panicked ∧
    refParts shortHeadPath = none ∧
    refPartsReal upperHeadPath =
      PartsOutcome.parts ⟨["refs", DIT_REF_PART], 171 * 256 ^ 19, RefKind.head⟩ ∧
    parseOid upperOidStr = none ∧
    refParts upperHeadPath = none ∧
    refPartsReal trailingHeadPath =
      PartsOutcome.parts ⟨["refs", DIT_REF_PART], 0, RefKind.head⟩ ∧
    parseOid trailingOidStr = none ∧
    refParts trailingHeadPath = none :=
  ⟨rfl, rfl, rfl, rfl, rfl, rfl, rfl, rfl⟩

end GitDit
